import Mathlib

/-!
# Verification of the retrieval-augmented answer pipeline (`src/lib/rag.ts`)

A shallow embedding of the hybrid-retrieval / score-fusion / thread-expansion /
context-assembly / answer-synthesis pipeline, together with proofs of the
testable properties stated for it.

Modelling conventions:
* Numeric scores (cosine similarity, full-text ranks, hybrid scores) are
  modelled as rationals `ℚ`; the source computes with IEEE doubles and states
  its score equations "within floating-point tolerance", which exact rational
  arithmetic captures.
* Timestamps (`date` fields, compared via `new Date(x).getTime()`) are
  modelled as natural numbers.
* A JavaScript `Map` is modelled as an association list in insertion order:
  `set` on a present key updates the value in place, on an absent key appends;
  `values()` iterates in insertion order.
* `Array.prototype.sort` (stable since ES2019, and in the V8 runtime used) is
  modelled as a stable insertion sort driven by the source's comparator.
* External calls (embedding provider, the two search RPCs, the per-thread
  fetch, the language-model provider) are modelled by their outcomes, passed
  in as an explicit environment.
-/

/-- The `Email` row of the data model (`src/lib/types.ts`), with `date` and
`created_at` as numeric timestamps.  The source field `body_clean` is named
`body_cleaned` here. -/
structure Email where
  id : String
  message_id : String
  in_reply_to : Option String
  references_ids : List String
  subject : String
  author_name : Option String
  author_email : Option String
  date : Nat
  body_cleaned : Option String
  body_new_content : Option String
  source_url : Option String
  month_period : Option String
  thread_root_id : Option String
  thread_depth : Nat
  created_at : Nat
deriving DecidableEq, Repr

/-- `EmailWithSimilarity` (`src/lib/types.ts`): an email optionally carrying a
vector-search similarity and/or a full-text rank. -/
structure EmailWithSimilarity extends Email where
  similarity : Option ℚ
  rank : Option ℚ
deriving DecidableEq, Repr

/-- `RetrievedEmail` (`src/lib/rag.ts`): an `EmailWithSimilarity` plus the
fused hybrid score. -/
structure RetrievedEmail extends EmailWithSimilarity where
  hybrid_score : ℚ
deriving DecidableEq, Repr

/-- `SourceEmail` (`src/lib/types.ts`): a citation row. -/
structure SourceEmail where
  message_id : String
  subject : String
  author_name : Option String
  date : Nat
  excerpt : String
  source_url : Option String
  relevance_score : ℚ
deriving DecidableEq, Repr

section JsMap

variable {α : Type*}

/-- JavaScript `Map.prototype.set`: update in place if the key is present,
append otherwise. -/
def jsSet (m : List (String × α)) (k : String) (v : α) : List (String × α) :=
  if m.any (fun p => p.1 = k) then
    m.map (fun p => if p.1 = k then (k, v) else p)
  else m ++ [(k, v)]

/-- JavaScript `Map.prototype.get`. -/
def jsGet (m : List (String × α)) (k : String) : Option α :=
  (m.find? (fun p => p.1 = k)).map (fun p => p.2)

/-- JavaScript `Map.prototype.values()` in insertion order. -/
def jsValues (m : List (String × α)) : List α :=
  m.map (fun p => p.2)

/-- The keys of the map, in insertion order. -/
def jsKeys (m : List (String × α)) : List String :=
  m.map (fun p => p.1)

theorem jsAny_eq_mem_jsKeys (m : List (String × α)) (k : String) :
    m.any (fun p => p.1 = k) = true ↔ k ∈ jsKeys m := by
  simp [List.any_eq_true, jsKeys, List.mem_map]

theorem jsKeys_jsSet (m : List (String × α)) (k : String) (v : α) :
    jsKeys (jsSet m k v) = if k ∈ jsKeys m then jsKeys m else jsKeys m ++ [k] := by
  unfold jsSet
  by_cases h : k ∈ jsKeys m
  · rw [if_pos ((jsAny_eq_mem_jsKeys m k).mpr h), if_pos h]
    unfold jsKeys
    rw [List.map_map]
    refine List.map_congr_left ?_
    intro p _
    by_cases hp : p.1 = k <;> simp [hp]
  · rw [if_neg (fun hc => h ((jsAny_eq_mem_jsKeys m k).mp hc)), if_neg h]
    simp [jsKeys]

theorem mem_jsKeys_jsSet_self (m : List (String × α)) (k : String) (v : α) :
    k ∈ jsKeys (jsSet m k v) := by
  rw [jsKeys_jsSet]
  by_cases h : k ∈ jsKeys m <;> simp [h]

theorem mem_jsKeys_jsSet_of_mem (m : List (String × α)) (k k' : String) (v : α)
    (h : k' ∈ jsKeys m) : k' ∈ jsKeys (jsSet m k v) := by
  rw [jsKeys_jsSet]
  by_cases hk : k ∈ jsKeys m <;> simp [hk, h]

theorem jsGet_eq_none_iff (m : List (String × α)) (k : String) :
    jsGet m k = none ↔ k ∉ jsKeys m := by
  simp only [jsGet, Option.map_eq_none', List.find?_eq_none, decide_eq_true_eq,
    jsKeys, List.mem_map]
  constructor
  · rintro h ⟨p, hp, rfl⟩
    exact h p hp rfl
  · intro h p hp hpk
    exact h ⟨p, hp, hpk⟩

theorem jsGet_map_update_self (m : List (String × α)) (k : String) (v : α)
    (h : k ∈ jsKeys m) :
    jsGet (m.map (fun p => if p.1 = k then (k, v) else p)) k = some v := by
  induction m with
  | nil => simp [jsKeys] at h
  | cons q t ih =>
    by_cases hq : q.1 = k
    · simp [jsGet, List.find?_cons, hq]
    · have ht : k ∈ jsKeys t := by
        simp only [jsKeys, List.map_cons, List.mem_cons] at h
        rcases h with h | h
        · exact absurd h.symm hq
        · exact h
      simpa [jsGet, List.find?_cons, hq] using ih ht

theorem jsGet_map_update_ne (m : List (String × α)) (k k' : String) (v : α)
    (h : k' ≠ k) :
    jsGet (m.map (fun p => if p.1 = k then (k, v) else p)) k' = jsGet m k' := by
  induction m with
  | nil => simp
  | cons q t ih =>
    simp only [List.map_cons]
    by_cases hq : q.1 = k
    · rw [if_pos hq]
      have h1 : ¬((k, v).1 = k') := by simpa using Ne.symm h
      have h2 : ¬(q.1 = k') := by rw [hq]; simpa using Ne.symm h
      simpa [jsGet, List.find?_cons, h1, h2] using ih
    · rw [if_neg hq]
      by_cases hq2 : q.1 = k'
      · simp [jsGet, List.find?_cons, hq2]
      · simpa [jsGet, List.find?_cons, hq2] using ih

theorem jsGet_append_single_self (m : List (String × α)) (k : String) (v : α)
    (h : k ∉ jsKeys m) : jsGet (m ++ [(k, v)]) k = some v := by
  induction m with
  | nil => simp [jsGet]
  | cons q t ih =>
    have hq : ¬(q.1 = k) := by
      intro hq
      exact h (by simp [jsKeys, hq])
    have ht : k ∉ jsKeys t := by
      intro hc
      exact h (by simp [jsKeys] at hc ⊢; exact Or.inr hc)
    simpa [jsGet, List.find?_cons, hq] using ih ht

theorem jsGet_append_single_ne (m : List (String × α)) (k k' : String) (v : α)
    (h : k' ≠ k) : jsGet (m ++ [(k, v)]) k' = jsGet m k' := by
  induction m with
  | nil => simp [jsGet, List.find?_cons, Ne.symm h]
  | cons q t ih =>
    by_cases hq2 : q.1 = k'
    · simp [jsGet, List.find?_cons, hq2]
    · simpa [jsGet, List.find?_cons, hq2] using ih

theorem jsGet_jsSet_self (m : List (String × α)) (k : String) (v : α) :
    jsGet (jsSet m k v) k = some v := by
  unfold jsSet
  by_cases h : k ∈ jsKeys m
  · rw [if_pos ((jsAny_eq_mem_jsKeys m k).mpr h)]
    exact jsGet_map_update_self m k v h
  · rw [if_neg (fun hc => h ((jsAny_eq_mem_jsKeys m k).mp hc))]
    exact jsGet_append_single_self m k v h

theorem jsGet_jsSet_ne (m : List (String × α)) (k k' : String) (v : α)
    (h : k' ≠ k) : jsGet (jsSet m k v) k' = jsGet m k' := by
  unfold jsSet
  by_cases hm : k ∈ jsKeys m
  · rw [if_pos ((jsAny_eq_mem_jsKeys m k).mpr hm)]
    exact jsGet_map_update_ne m k k' v h
  · rw [if_neg (fun hc => hm ((jsAny_eq_mem_jsKeys m k).mp hc))]
    exact jsGet_append_single_ne m k k' v h

/-- Well-formedness of the maps the pipeline builds: keys are distinct and
every stored value carries its own key (`key v = k`). -/
def MapWF (key : α → String) (m : List (String × α)) : Prop :=
  (jsKeys m).Nodup ∧ ∀ p ∈ m, key p.2 = p.1

theorem mapWF_nil (key : α → String) : MapWF key ([] : List (String × α)) := by
  constructor
  · simp [jsKeys]
  · intro p hp
    simp at hp

theorem mapWF_jsSet (key : α → String) (m : List (String × α)) (k : String) (v : α)
    (hm : MapWF key m) (hv : key v = k) : MapWF key (jsSet m k v) := by
  obtain ⟨hnd, hkv⟩ := hm
  constructor
  · rw [jsKeys_jsSet]
    by_cases h : k ∈ jsKeys m
    · simpa [h] using hnd
    · simp only [h, if_false]
      exact List.Nodup.append hnd (by simp) (by simpa using h)
  · intro p hp
    unfold jsSet at hp
    by_cases h : m.any (fun q => q.1 = k)
    · rw [if_pos h] at hp
      obtain ⟨q, hq, hqeq⟩ := List.mem_map.mp hp
      by_cases hq1 : q.1 = k
      · rw [if_pos hq1] at hqeq
        rw [← hqeq]
        exact hv
      · rw [if_neg hq1] at hqeq
        rw [← hqeq]
        exact hkv q hq
    · rw [if_neg h] at hp
      rcases List.mem_append.mp hp with hp | hp
      · exact hkv p hp
      · simp only [List.mem_singleton] at hp
        rw [hp]
        exact hv

theorem mem_of_jsValues (m : List (String × α)) (v : α) (h : v ∈ jsValues m) :
    ∃ k, (k, v) ∈ m := by
  obtain ⟨p, hp, hpe⟩ := List.mem_map.mp h
  exact ⟨p.1, by rwa [show (p.1, v) = p by rw [← hpe]]⟩

theorem jsGet_of_mem_nodup (m : List (String × α)) (k : String) (v : α)
    (hnd : (jsKeys m).Nodup) (h : (k, v) ∈ m) : jsGet m k = some v := by
  induction m with
  | nil => simp at h
  | cons q t ih =>
    have hcons : jsKeys (q :: t) = q.1 :: jsKeys t := by simp [jsKeys]
    rw [hcons] at hnd
    obtain ⟨hq1, hndt⟩ := List.nodup_cons.mp hnd
    rcases List.mem_cons.mp h with h | h
    · simp [jsGet, List.find?_cons, ← h]
    · have hq : ¬(q.1 = k) := by
        intro hq
        exact hq1 (hq ▸ List.mem_map.mpr ⟨(k, v), h, rfl⟩)
      simpa [jsGet, List.find?_cons, hq] using ih hndt h

theorem jsValues_key_eq (key : α → String) (m : List (String × α)) (hwf : MapWF key m) :
    (jsValues m).map key = jsKeys m := by
  unfold jsValues jsKeys
  rw [List.map_map]
  refine List.map_congr_left ?_
  intro p hp
  exact hwf.2 p hp

theorem jsValues_jsSet_subset (m : List (String × α)) (k : String) (v v' : α)
    (h : v' ∈ jsValues (jsSet m k v)) : v' = v ∨ v' ∈ jsValues m := by
  unfold jsSet at h
  by_cases hm : m.any (fun q => q.1 = k)
  · rw [if_pos hm] at h
    obtain ⟨p, hp, hpe⟩ := List.mem_map.mp h
    obtain ⟨q, hq, hqe⟩ := List.mem_map.mp hp
    by_cases hq1 : q.1 = k
    · rw [if_pos hq1] at hqe
      left
      rw [← hpe, ← hqe]
    · rw [if_neg hq1] at hqe
      right
      rw [← hpe, ← hqe]
      exact List.mem_map.mpr ⟨q, hq, rfl⟩
  · rw [if_neg hm] at h
    unfold jsValues at h
    rw [List.map_append] at h
    rcases List.mem_append.mp h with h | h
    · right
      exact h
    · left
      simpa using h

theorem jsSet_length_le (m : List (String × α)) (k : String) (v : α) :
    (jsSet m k v).length ≤ m.length + 1 := by
  unfold jsSet
  by_cases h : m.any (fun q => q.1 = k)
  · rw [if_pos h, List.length_map]
    omega
  · rw [if_neg h, List.length_append]
    simp

end JsMap

section StableSort

variable {α : Type*}

/-- One step of the stable sort modelling `Array.prototype.sort` with a
comparator: the incoming element `x` is placed before the first already-placed
element `y` that it must strictly precede (`before x y`), and after every
element it ties with. -/
def stInsert (before : α → α → Bool) (x : α) : List α → List α
  | [] => [x]
  | y :: ys => if before x y then x :: y :: ys else y :: stInsert before x ys

/-- Stable sort by the comparator-induced strict order `before`
(ES2019 `Array.prototype.sort` is stable). -/
def stSort (before : α → α → Bool) (l : List α) : List α :=
  l.foldl (fun acc x => stInsert before x acc) []

theorem stInsert_perm (before : α → α → Bool) (x : α) (l : List α) :
    List.Perm (stInsert before x l) (x :: l) := by
  induction l with
  | nil => exact List.Perm.refl _
  | cons y ys ih =>
    unfold stInsert
    by_cases h : before x y
    · rw [if_pos h]
    · rw [if_neg h]
      exact (ih.cons y).trans (List.Perm.swap x y ys)

theorem stSort_fold_perm (before : α → α → Bool) (l acc : List α) :
    List.Perm (l.foldl (fun acc x => stInsert before x acc) acc) (acc ++ l) := by
  induction l generalizing acc with
  | nil => simp
  | cons x t ih =>
    have h1 : (x :: t).foldl (fun acc x => stInsert before x acc) acc
        = t.foldl (fun acc x => stInsert before x acc) (stInsert before x acc) := rfl
    rw [h1]
    refine (ih _).trans ?_
    refine (((stInsert_perm before x acc).append_right t).trans ?_)
    exact (List.perm_middle).symm

theorem stSort_perm (before : α → α → Bool) (l : List α) :
    List.Perm (stSort before l) l := by
  simpa using stSort_fold_perm before l []

/-- Key step invariant: inserting `x` after all its ties preserves both the
sortedness relation and any pairwise relation `Q` that holds from every
already-placed element to `x` and between strictly ordered elements. -/
theorem stInsert_pairwise (before : α → α → Bool) (Q : α → α → Prop)
    (hasym : ∀ a b, before a b = true → before b a = false)
    (htr : ∀ a b c, before a b = true → before c b = false → before a c = true)
    (hQb : ∀ a b, before a b = true → Q a b)
    (x : α) (acc : List α)
    (hacc : acc.Pairwise (fun a b => before b a = false ∧ Q a b))
    (hx : ∀ y ∈ acc, Q y x) :
    (stInsert before x acc).Pairwise (fun a b => before b a = false ∧ Q a b) := by
  induction acc with
  | nil => simp [stInsert]
  | cons y ys ih =>
    unfold stInsert
    by_cases h : before x y
    · rw [if_pos h]
      refine List.Pairwise.cons ?_ hacc
      intro z hz
      rcases List.mem_cons.mp hz with hz | hz
      · subst hz
        exact ⟨hasym x z h, hQb x z h⟩
      · have hzy : before z y = false := ((List.pairwise_cons.mp hacc).1 z hz).1
        have hxz : before x z = true := htr x y z h hzy
        exact ⟨hasym x z hxz, hQb x z hxz⟩
    · rw [if_neg h]
      have hys := (List.pairwise_cons.mp hacc).2
      refine List.Pairwise.cons ?_ (ih hys (fun z hz => hx z (List.mem_cons_of_mem y hz)))
      intro z hz
      have hz' := (stInsert_perm before x ys).mem_iff.mp hz
      rcases List.mem_cons.mp hz' with hz' | hz'
      · subst hz'
        exact ⟨Bool.eq_false_iff.mpr h, hx y (by simp)⟩
      · exact (List.pairwise_cons.mp hacc).1 z hz'

theorem stSort_pairwise (before : α → α → Bool) (Q : α → α → Prop)
    (hasym : ∀ a b, before a b = true → before b a = false)
    (htr : ∀ a b c, before a b = true → before c b = false → before a c = true)
    (hQb : ∀ a b, before a b = true → Q a b)
    (l : List α) (hl : l.Pairwise Q) :
    (stSort before l).Pairwise (fun a b => before b a = false ∧ Q a b) := by
  suffices h : ∀ acc, acc.Pairwise (fun a b => before b a = false ∧ Q a b) →
      (∀ x ∈ l, ∀ y ∈ acc, Q y x) → l.Pairwise Q →
      (l.foldl (fun acc x => stInsert before x acc) acc).Pairwise
        (fun a b => before b a = false ∧ Q a b) by
    exact h [] (by simp) (by simp) hl
  clear hl
  induction l with
  | nil =>
    intro acc hacc _ _
    simpa using hacc
  | cons x t ih =>
    intro acc hacc hcross hl
    have hx : ∀ y ∈ acc, Q y x := fun y hy => hcross x (by simp) y hy
    refine ih (stInsert before x acc) (stInsert_pairwise before Q hasym htr hQb x acc hacc hx) ?_
      (List.pairwise_cons.mp hl).2
    intro z hz y hy
    have hy' := (stInsert_perm before x acc).mem_iff.mp hy
    rcases List.mem_cons.mp hy' with hy' | hy'
    · subst hy'
      exact (List.pairwise_cons.mp hl).1 z hz
    · exact hcross z (List.mem_cons_of_mem x hz) y hy'

end StableSort

/-! ## Step 3: hybrid merge and re-rank (`mergeAndRerank`, `src/lib/rag.ts`) -/

/-- The strict precedence induced by the comparator
`(a, b) => b.hybrid_score - a.hybrid_score` (sort descending by score). -/
def scoreBefore (a b : RetrievedEmail) : Bool :=
  decide (b.hybrid_score < a.hybrid_score)

/-- Attach a hybrid score to an email (`{ ...email, hybrid_score: score }`). -/
def toRetrieved (e : EmailWithSimilarity) (s : ℚ) : RetrievedEmail :=
  { toEmailWithSimilarity := e, hybrid_score := s }

/-- `const vectorWeight = 0.6`. -/
def vectorWeight : ℚ := 0.6

/-- `const keywordWeight = 0.4`. -/
def keywordWeight : ℚ := 0.4

/-- `Math.max(...keywordResults.map(r => r.rank ?? 0), 1)`: the maximum rank
in the lexical result set, with minimum divisor 1. -/
def maxRankOf (keywordResults : List EmailWithSimilarity) : ℚ :=
  (keywordResults.map (fun r => r.rank.getD 0)).foldl max 1

/-- The vector loop: seed each vector match with `similarity * 0.6`. -/
def mergePhase1 (vectorResults : List EmailWithSimilarity) :
    List (String × RetrievedEmail) :=
  vectorResults.foldl
    (fun m e => jsSet m e.message_id (toRetrieved e ((e.similarity.getD 0) * vectorWeight)))
    []

/-- A lexical match's normalized weighted contribution
`((rank ?? 0) / maxRank) * 0.4`. -/
def kwContribution (maxRank : ℚ) (e : EmailWithSimilarity) : ℚ :=
  ((e.rank.getD 0) / maxRank) * keywordWeight

/-- The keyword loop: add the normalized contribution to an existing entry, or
create a new entry. -/
def mergePhase2 (maxRank : ℚ) (keywordResults : List EmailWithSimilarity)
    (m0 : List (String × RetrievedEmail)) : List (String × RetrievedEmail) :=
  keywordResults.foldl
    (fun m e =>
      match jsGet m e.message_id with
      | some cur => jsSet m e.message_id
          { cur with hybrid_score := cur.hybrid_score + kwContribution maxRank e }
      | none => jsSet m e.message_id (toRetrieved e (kwContribution maxRank e)))
    m0

/-- `mergeAndRerank` (`src/lib/rag.ts` lines 137-174): fuse the two ranked
lists, sort by hybrid score descending (stable) and truncate to `topK`. -/
def mergeAndRerank (vectorResults keywordResults : List EmailWithSimilarity)
    (topK : Nat) : List RetrievedEmail :=
  let m := mergePhase2 (maxRankOf keywordResults) keywordResults (mergePhase1 vectorResults)
  (stSort scoreBefore (jsValues m)).take topK

theorem toRetrieved_message_id (e : EmailWithSimilarity) (s : ℚ) :
    (toRetrieved e s).message_id = e.message_id := rfl

theorem mergePhase1_get_preserve (vr : List EmailWithSimilarity)
    (m : List (String × RetrievedEmail)) (id : String)
    (h : id ∉ vr.map (fun e => e.message_id)) :
    jsGet (vr.foldl
      (fun m e => jsSet m e.message_id (toRetrieved e ((e.similarity.getD 0) * vectorWeight)))
      m) id = jsGet m id := by
  induction vr generalizing m with
  | nil => rfl
  | cons x t ih =>
    have hx : id ≠ x.message_id := by
      intro hc
      exact h (by simp [hc])
    have ht : id ∉ t.map (fun e => e.message_id) := by
      intro hc
      exact h (by simp [hc])
    rw [List.foldl_cons, ih _ ht, jsGet_jsSet_ne _ _ _ _ hx]

theorem mergePhase1_get_of_mem (vr : List EmailWithSimilarity)
    (m : List (String × RetrievedEmail)) (e : EmailWithSimilarity)
    (hnd : (vr.map (fun e => e.message_id)).Nodup) (he : e ∈ vr) :
    jsGet (vr.foldl
      (fun m e => jsSet m e.message_id (toRetrieved e ((e.similarity.getD 0) * vectorWeight)))
      m) e.message_id = some (toRetrieved e ((e.similarity.getD 0) * vectorWeight)) := by
  induction vr generalizing m with
  | nil => simp at he
  | cons x t ih =>
    have hcons : (x :: t).map (fun e => e.message_id)
        = x.message_id :: t.map (fun e => e.message_id) := rfl
    rw [hcons] at hnd
    obtain ⟨hx1, hndt⟩ := List.nodup_cons.mp hnd
    rcases List.mem_cons.mp he with he | he
    · subst he
      rw [List.foldl_cons,
        mergePhase1_get_preserve t _ e.message_id hx1, jsGet_jsSet_self]
    · rw [List.foldl_cons]
      exact ih _ hndt he

theorem jsGet_wf_key {α : Type*} (key : α → String) (m : List (String × α))
    (k : String) (v : α) (hwf : MapWF key m) (h : jsGet m k = some v) : key v = k := by
  unfold jsGet at h
  obtain ⟨p, hfind, hpe⟩ := Option.map_eq_some'.mp h
  have hpmem := List.mem_of_find?_eq_some hfind
  have hpk : p.1 = k := by simpa using List.find?_some hfind
  rw [← hpe, hwf.2 p hpmem, hpk]

theorem jsGet_of_mem_values {α : Type*} (key : α → String) (m : List (String × α))
    (hwf : MapWF key m) (v : α) (h : v ∈ jsValues m) : jsGet m (key v) = some v := by
  obtain ⟨k, hk⟩ := mem_of_jsValues m v h
  rw [hwf.2 (k, v) hk]
  exact jsGet_of_mem_nodup m k v hwf.1 hk

theorem mergePhase1_wf (vr : List EmailWithSimilarity)
    (m : List (String × RetrievedEmail)) (hm : MapWF (fun r => r.message_id) m) :
    MapWF (fun r => r.message_id)
      (vr.foldl
        (fun m e => jsSet m e.message_id (toRetrieved e ((e.similarity.getD 0) * vectorWeight)))
        m) := by
  induction vr generalizing m with
  | nil => exact hm
  | cons x t ih =>
    rw [List.foldl_cons]
    exact ih _ (mapWF_jsSet _ _ _ _ hm rfl)

theorem mergePhase2_wf (mr : ℚ) (kr : List EmailWithSimilarity)
    (m : List (String × RetrievedEmail)) (hm : MapWF (fun r => r.message_id) m) :
    MapWF (fun r => r.message_id) (mergePhase2 mr kr m) := by
  induction kr generalizing m with
  | nil => exact hm
  | cons x t ih =>
    unfold mergePhase2 at ih ⊢
    rw [List.foldl_cons]
    cases hg : jsGet m x.message_id with
    | some cur =>
      have hcur : cur.message_id = x.message_id :=
        jsGet_wf_key (fun r => r.message_id) m x.message_id cur hm hg
      exact ih _ (mapWF_jsSet _ _ _ _ hm hcur)
    | none =>
      exact ih _ (mapWF_jsSet _ _ _ _ hm rfl)

theorem mergePhase2_get_preserve (mr : ℚ) (kr : List EmailWithSimilarity)
    (m : List (String × RetrievedEmail)) (id : String)
    (h : id ∉ kr.map (fun e => e.message_id)) :
    jsGet (mergePhase2 mr kr m) id = jsGet m id := by
  induction kr generalizing m with
  | nil => rfl
  | cons x t ih =>
    have hx : id ≠ x.message_id := by
      intro hc
      exact h (by simp [hc])
    have ht : id ∉ t.map (fun e => e.message_id) := by
      intro hc
      exact h (by simp [hc])
    unfold mergePhase2 at ih ⊢
    rw [List.foldl_cons]
    cases hg : jsGet m x.message_id with
    | some cur => exact (ih _ ht).trans (jsGet_jsSet_ne _ _ _ _ hx)
    | none => exact (ih _ ht).trans (jsGet_jsSet_ne _ _ _ _ hx)

theorem mergePhase2_get_of_mem (mr : ℚ) (kr : List EmailWithSimilarity)
    (m : List (String × RetrievedEmail)) (e : EmailWithSimilarity)
    (hnd : (kr.map (fun e => e.message_id)).Nodup) (he : e ∈ kr) :
    jsGet (mergePhase2 mr kr m) e.message_id =
      match jsGet m e.message_id with
      | some cur => some { cur with hybrid_score := cur.hybrid_score + kwContribution mr e }
      | none => some (toRetrieved e (kwContribution mr e)) := by
  induction kr generalizing m with
  | nil => simp at he
  | cons x t ih =>
    have hcons : (x :: t).map (fun e => e.message_id)
        = x.message_id :: t.map (fun e => e.message_id) := rfl
    rw [hcons] at hnd
    obtain ⟨hx1, hndt⟩ := List.nodup_cons.mp hnd
    rcases List.mem_cons.mp he with he | he
    · subst he
      unfold mergePhase2
      rw [List.foldl_cons]
      cases hg : jsGet m e.message_id with
      | some cur =>
        exact (mergePhase2_get_preserve mr t _ e.message_id hx1).trans (jsGet_jsSet_self _ _ _)
      | none =>
        exact (mergePhase2_get_preserve mr t _ e.message_id hx1).trans (jsGet_jsSet_self _ _ _)
    · have hne : e.message_id ≠ x.message_id := by
        intro hc
        exact hx1 (hc ▸ List.mem_map.mpr ⟨e, he, rfl⟩)
      unfold mergePhase2
      rw [List.foldl_cons]
      cases hg : jsGet m x.message_id with
      | some cur =>
        have hstep := ih (jsSet m x.message_id
          { cur with hybrid_score := cur.hybrid_score + kwContribution mr x }) hndt he
        unfold mergePhase2 at hstep
        rw [hstep, jsGet_jsSet_ne _ _ _ _ hne]
      | none =>
        have hstep := ih (jsSet m x.message_id (toRetrieved x (kwContribution mr x))) hndt he
        unfold mergePhase2 at hstep
        rw [hstep, jsGet_jsSet_ne _ _ _ _ hne]

/-- The merged map is well-formed: distinct keys, each value keyed by its own
message identifier. -/
theorem mergeMap_wf (vr kr : List EmailWithSimilarity) :
    MapWF (fun r => r.message_id)
      (mergePhase2 (maxRankOf kr) kr (mergePhase1 vr)) :=
  mergePhase2_wf _ _ _ (mergePhase1_wf vr [] (mapWF_nil _))

theorem mem_values_of_mem_mergeAndRerank (vr kr : List EmailWithSimilarity)
    (topK : Nat) (r : RetrievedEmail) (hr : r ∈ mergeAndRerank vr kr topK) :
    jsGet (mergePhase2 (maxRankOf kr) kr (mergePhase1 vr)) r.message_id = some r := by
  unfold mergeAndRerank at hr
  have h1 : r ∈ stSort scoreBefore
      (jsValues (mergePhase2 (maxRankOf kr) kr (mergePhase1 vr))) :=
    List.mem_of_mem_take hr
  have h2 : r ∈ jsValues (mergePhase2 (maxRankOf kr) kr (mergePhase1 vr)) :=
    (stSort_perm _ _).mem_iff.mp h1
  exact jsGet_of_mem_values (fun r => r.message_id) _ (mergeMap_wf vr kr) r h2

theorem mergePhase1_keys_mono (vr : List EmailWithSimilarity)
    (m : List (String × RetrievedEmail)) (k : String) (h : k ∈ jsKeys m) :
    k ∈ jsKeys (vr.foldl
      (fun m e => jsSet m e.message_id (toRetrieved e ((e.similarity.getD 0) * vectorWeight)))
      m) := by
  induction vr generalizing m with
  | nil => exact h
  | cons x t ih =>
    rw [List.foldl_cons]
    exact ih _ (mem_jsKeys_jsSet_of_mem _ _ _ _ h)

theorem mergePhase1_keys_cover (vr : List EmailWithSimilarity)
    (m : List (String × RetrievedEmail)) (e : EmailWithSimilarity) (he : e ∈ vr) :
    e.message_id ∈ jsKeys (vr.foldl
      (fun m e => jsSet m e.message_id (toRetrieved e ((e.similarity.getD 0) * vectorWeight)))
      m) := by
  induction vr generalizing m with
  | nil => simp at he
  | cons x t ih =>
    rw [List.foldl_cons]
    rcases List.mem_cons.mp he with he | he
    · subst he
      exact mergePhase1_keys_mono t _ _ (mem_jsKeys_jsSet_self _ _ _)
    · exact ih _ he

theorem mergePhase1_keys_subset (vr : List EmailWithSimilarity)
    (m : List (String × RetrievedEmail)) (k : String)
    (h : k ∈ jsKeys (vr.foldl
      (fun m e => jsSet m e.message_id (toRetrieved e ((e.similarity.getD 0) * vectorWeight)))
      m)) :
    k ∈ jsKeys m ∨ k ∈ vr.map (fun e => e.message_id) := by
  induction vr generalizing m with
  | nil => exact Or.inl h
  | cons x t ih =>
    rw [List.foldl_cons] at h
    rcases ih _ h with h | h
    · rw [jsKeys_jsSet] at h
      by_cases hx : x.message_id ∈ jsKeys m
      · rw [if_pos hx] at h
        exact Or.inl h
      · rw [if_neg hx] at h
        rcases List.mem_append.mp h with h | h
        · exact Or.inl h
        · right
          simp only [List.mem_singleton] at h
          simp [h]
    · right
      simp [h]

/-- Segregation of the merged map's keys: every vector-seeded key precedes
every lexical-only key. -/
def VSeg (vrIds : List String) (m : List (String × RetrievedEmail)) : Prop :=
  (jsKeys m).Pairwise (fun k1 k2 => k2 ∈ vrIds → k1 ∈ vrIds)

theorem mergePhase2_vseg (vrIds : List String) (mr : ℚ)
    (kr : List EmailWithSimilarity) (m : List (String × RetrievedEmail))
    (hseg : VSeg vrIds m) (hcov : ∀ k ∈ vrIds, k ∈ jsKeys m) :
    VSeg vrIds (mergePhase2 mr kr m) := by
  induction kr generalizing m with
  | nil => exact hseg
  | cons x t ih =>
    unfold mergePhase2 at ih ⊢
    rw [List.foldl_cons]
    cases hg : jsGet m x.message_id with
    | some cur =>
      have hmem : x.message_id ∈ jsKeys m := by
        by_contra hc
        rw [← jsGet_eq_none_iff] at hc
        rw [hc] at hg
        cases hg
      have hkeys : jsKeys (jsSet m x.message_id
          { cur with hybrid_score := cur.hybrid_score + kwContribution mr x }) = jsKeys m := by
        rw [jsKeys_jsSet, if_pos hmem]
      refine ih _ ?_ ?_
      · unfold VSeg
        rw [hkeys]
        exact hseg
      · intro k hk
        rw [hkeys]
        exact hcov k hk
    | none =>
      have hnmem : x.message_id ∉ jsKeys m := (jsGet_eq_none_iff m _).mp hg
      have hnv : x.message_id ∉ vrIds := fun hc => hnmem (hcov _ hc)
      have hkeys : jsKeys (jsSet m x.message_id (toRetrieved x (kwContribution mr x)))
          = jsKeys m ++ [x.message_id] := by
        rw [jsKeys_jsSet, if_neg hnmem]
      refine ih _ ?_ ?_
      · unfold VSeg
        rw [hkeys]
        rw [List.pairwise_append]
        refine ⟨hseg, by simp, ?_⟩
        intro a _ b hb
        simp only [List.mem_singleton] at hb
        subst hb
        intro hc
        exact absurd hc hnv
      · intro k hk
        rw [hkeys]
        exact List.mem_append_left _ (hcov k hk)

/-- C1.  For every pair of input lists (with distinct message identifiers
within each list, as search results have), every message in the merged output
carries the fused score: present in both lists,
`similarity*0.6 + (rank/maxRank)*0.4`; present in exactly one list, that
source's weighted contribution alone (`vectorWeight = 0.6`,
`keywordWeight = 0.4`, `maxRankOf` has minimum divisor 1). -/
theorem mergeAndRerank_score_formula (vr kr : List EmailWithSimilarity)
    (hv : (vr.map (fun e => e.message_id)).Nodup)
    (hk : (kr.map (fun e => e.message_id)).Nodup)
    (r : RetrievedEmail) (hr : r ∈ mergeAndRerank vr kr 10) :
    (∀ ev ∈ vr, ev.message_id = r.message_id →
      ∀ ek ∈ kr, ek.message_id = r.message_id →
        r.hybrid_score = (ev.similarity.getD 0) * vectorWeight
          + ((ek.rank.getD 0) / maxRankOf kr) * keywordWeight)
    ∧ (∀ ev ∈ vr, ev.message_id = r.message_id →
        r.message_id ∉ kr.map (fun e => e.message_id) →
        r.hybrid_score = (ev.similarity.getD 0) * vectorWeight)
    ∧ (∀ ek ∈ kr, ek.message_id = r.message_id →
        r.message_id ∉ vr.map (fun e => e.message_id) →
        r.hybrid_score = ((ek.rank.getD 0) / maxRankOf kr) * keywordWeight) := by
  have hget := mem_values_of_mem_mergeAndRerank vr kr 10 r hr
  refine ⟨?_, ?_, ?_⟩
  · intro ev hev hevid ek hek hekid
    have h2 := mergePhase2_get_of_mem (maxRankOf kr) kr (mergePhase1 vr) ek hk hek
    rw [hekid] at h2
    have h1 := mergePhase1_get_of_mem vr [] ev hv hev
    rw [hevid] at h1
    have h1' : jsGet (mergePhase1 vr) r.message_id
        = some (toRetrieved ev ((ev.similarity.getD 0) * vectorWeight)) := h1
    rw [h1'] at h2
    rw [hget] at h2
    have hrr := Option.some.inj h2
    rw [hrr]
    rfl
  · intro ev hev hevid hnk
    have h2 := mergePhase2_get_preserve (maxRankOf kr) kr (mergePhase1 vr) r.message_id hnk
    have h1 := mergePhase1_get_of_mem vr [] ev hv hev
    rw [hevid] at h1
    have h1' : jsGet (mergePhase1 vr) r.message_id
        = some (toRetrieved ev ((ev.similarity.getD 0) * vectorWeight)) := h1
    rw [hget, h1'] at h2
    have hrr := Option.some.inj h2
    rw [hrr]
    rfl
  · intro ek hek hekid hnv
    have h2 := mergePhase2_get_of_mem (maxRankOf kr) kr (mergePhase1 vr) ek hk hek
    rw [hekid] at h2
    have h1 := mergePhase1_get_preserve vr [] r.message_id hnv
    have h1' : jsGet (mergePhase1 vr) r.message_id = none := h1
    rw [h1'] at h2
    rw [hget] at h2
    have hrr := Option.some.inj h2
    rw [hrr]
    rfl

theorem mergeMap_values_tie (vr kr : List EmailWithSimilarity) :
    (jsValues (mergePhase2 (maxRankOf kr) kr (mergePhase1 vr))).Pairwise
      (fun a b => b.message_id ∈ vr.map (fun e => e.message_id) →
        a.message_id ∈ vr.map (fun e => e.message_id)) := by
  have h1seg : VSeg (vr.map (fun e => e.message_id)) (mergePhase1 vr) := by
    apply List.pairwise_of_forall_mem_list
    intro k1 hk1 k2 _
    intro _
    rcases mergePhase1_keys_subset vr [] k1 hk1 with h | h
    · simp [jsKeys] at h
    · exact h
  have h1cov : ∀ k ∈ vr.map (fun e => e.message_id), k ∈ jsKeys (mergePhase1 vr) := by
    intro k hk
    obtain ⟨e, he, rfl⟩ := List.mem_map.mp hk
    exact mergePhase1_keys_cover vr [] e he
  have hseg := mergePhase2_vseg _ (maxRankOf kr) kr (mergePhase1 vr) h1seg h1cov
  unfold VSeg jsKeys at hseg
  rw [List.pairwise_map] at hseg
  unfold jsValues
  rw [List.pairwise_map]
  have hwf := mergeMap_wf vr kr
  refine List.Pairwise.imp_of_mem ?_ hseg
  intro p q hp hq h
  have e1 : p.2.message_id = p.1 := hwf.2 p hp
  have e2 : q.2.message_id = q.1 := hwf.2 q hq
  rw [e1, e2]
  exact h

theorem scoreBefore_asymm (a b : RetrievedEmail) (h : scoreBefore a b = true) :
    scoreBefore b a = false := by
  simp only [scoreBefore, decide_eq_true_eq] at h
  simp only [scoreBefore, decide_eq_false_iff_not]
  exact lt_asymm h

theorem scoreBefore_trans (a b c : RetrievedEmail) (h1 : scoreBefore a b = true)
    (h2 : scoreBefore c b = false) : scoreBefore a c = true := by
  simp only [scoreBefore, decide_eq_true_eq] at h1 ⊢
  simp only [scoreBefore, decide_eq_false_iff_not] at h2
  exact lt_of_le_of_lt (not_lt.mp h2) h1

/-- C2.  Every merged output has length at most the top-K (10), is sorted by
hybrid score in descending order, and at equal scores vector-seeded entries
(message identifier present in the vector list) precede lexical-only
entries. -/
theorem mergeAndRerank_sorted_bounded (vr kr : List EmailWithSimilarity) :
    (mergeAndRerank vr kr 10).length ≤ 10
    ∧ (mergeAndRerank vr kr 10).Pairwise (fun a b => b.hybrid_score ≤ a.hybrid_score)
    ∧ (mergeAndRerank vr kr 10).Pairwise (fun a b =>
        a.hybrid_score = b.hybrid_score →
          b.message_id ∈ vr.map (fun e => e.message_id) →
          a.message_id ∈ vr.map (fun e => e.message_id)) := by
  have hQ : (jsValues (mergePhase2 (maxRankOf kr) kr (mergePhase1 vr))).Pairwise
      (fun a b => a.hybrid_score = b.hybrid_score →
        b.message_id ∈ vr.map (fun e => e.message_id) →
        a.message_id ∈ vr.map (fun e => e.message_id)) := by
    refine (mergeMap_values_tie vr kr).imp ?_
    intro a b h _
    exact h
  have hQb : ∀ a b : RetrievedEmail, scoreBefore a b = true →
      (a.hybrid_score = b.hybrid_score →
        b.message_id ∈ vr.map (fun e => e.message_id) →
        a.message_id ∈ vr.map (fun e => e.message_id)) := by
    intro a b h heq
    simp only [scoreBefore, decide_eq_true_eq] at h
    exact absurd heq (ne_of_gt h)
  have hsorted := stSort_pairwise scoreBefore _ scoreBefore_asymm scoreBefore_trans hQb
    (jsValues (mergePhase2 (maxRankOf kr) kr (mergePhase1 vr))) hQ
  have htake : mergeAndRerank vr kr 10
      = (stSort scoreBefore
          (jsValues (mergePhase2 (maxRankOf kr) kr (mergePhase1 vr)))).take 10 := rfl
  refine ⟨?_, ?_, ?_⟩
  · rw [htake]
    exact List.length_take_le _ _
  · rw [htake]
    refine List.Pairwise.sublist (List.take_sublist _ _) (hsorted.imp ?_)
    intro a b h
    have hh := h.1
    simp only [scoreBefore, decide_eq_false_iff_not] at hh
    exact not_lt.mp hh
  · rw [htake]
    exact List.Pairwise.sublist (List.take_sublist _ _) (hsorted.imp (fun h => h.2))

/-! ## Concrete fixtures -/

/-- A minimal email record for concrete test inputs. -/
def mkEmail (i : String) (d : Nat) (root par : Option String) : Email :=
  { id := i, message_id := i, in_reply_to := par, references_ids := [], subject := "s",
    author_name := none, author_email := none, date := d, body_cleaned := none,
    body_new_content := none, source_url := none, month_period := none,
    thread_root_id := root, thread_depth := 0, created_at := 0 }

/-- A vector-search result row carrying a similarity. -/
def mkVec (i : String) (sim : ℚ) : EmailWithSimilarity :=
  { toEmail := mkEmail i 0 none none, similarity := some sim, rank := none }

/-- A keyword-search result row carrying a rank. -/
def mkKw (i : String) (rank : ℚ) : EmailWithSimilarity :=
  { toEmail := mkEmail i 0 none none, similarity := none, rank := some rank }

/-! ## Step 4: thread expansion (`expandThreads`, `src/lib/rag.ts` lines 180-252) -/

/-- A row returned by the `match_emails` RPC (vector search), as declared in
`src/lib/supabase.ts`. -/
structure MatchRow where
  id : String
  message_id : String
  subject : String
  author_name : Option String
  author_email : Option String
  date : Nat
  body_new_content : Option String
  source_url : Option String
  thread_root_id : Option String
  thread_depth : Nat
  similarity : ℚ
deriving DecidableEq, Repr

/-- A row returned by the `search_emails_fts` RPC (keyword search). -/
structure KwRow where
  id : String
  message_id : String
  subject : String
  author_name : Option String
  author_email : Option String
  date : Nat
  body_new_content : Option String
  source_url : Option String
  thread_root_id : Option String
  thread_depth : Nat
  rank : ℚ
deriving DecidableEq, Repr

/-- The comparator of the per-thread fetch: `.order("date", ascending: true)`. -/
def dateBeforeE (a b : Email) : Bool :=
  decide (a.date < b.date)

/-- `MAX_PER_THREAD`. -/
def maxPerThread : Nat := 30

/-- `MAX_RELEVANT_WITHIN_THREAD`. -/
def maxRelevantWithinThread : Nat := 10

/-- The per-thread fetch:
`from("emails").select("*").eq("thread_root_id", rootId).order("date").limit(MAX_PER_THREAD + 5)`. -/
def fetchThread (db : List Email) (rootId : String) : List Email :=
  (stSort dateBeforeE (db.filter (fun e => e.thread_root_id = some rootId))).take
    (maxPerThread + 5)

/-- `for (const te of threadEmails) allEmails.set(te.message_id, te)`. -/
def setAllEmails (l : List Email) (m : List (String × Email)) : List (String × Email) :=
  l.foldl (fun m te => jsSet m te.message_id te) m

/-- The "include most relevant" loop of the large-thread branch: for each
relevant row, look up the full email in the fetched thread and include it. -/
def setRelevant (threadEmails : List Email) (relevant : List MatchRow)
    (m : List (String × Email)) : List (String × Email) :=
  relevant.foldl
    (fun m r =>
      match threadEmails.find? (fun te => te.message_id = r.message_id) with
      | some full => jsSet m full.message_id full
      | none => m)
    m

/-- "Always include thread root": look up the root in the fetched thread and
include it when found. -/
def setRoot (threadEmails : List Email) (rootId : String)
    (m : List (String × Email)) : List (String × Email) :=
  match threadEmails.find? (fun te => te.message_id = rootId) with
  | some root => jsSet m root.message_id root
  | none => m

/-- "Include parent of the matched email": `te.message_id === email.in_reply_to`
(never satisfied when `in_reply_to` is null). -/
def setParent (threadEmails : List Email) (email : RetrievedEmail)
    (m : List (String × Email)) : List (String × Email) :=
  match email.in_reply_to with
  | none => m
  | some pid =>
    match threadEmails.find? (fun te => te.message_id = pid) with
    | some parent => jsSet m parent.message_id parent
    | none => m

/-- The large-thread branch (`> MAX_PER_THREAD`): include the thread root,
the relevant in-thread matches (re-run coarse vector search filtered to
identifiers present in the thread), and the direct parent of the matched
email. -/
def expandLarge (threadEmails : List Email) (inThread : List MatchRow)
    (m1 : List (String × Email)) (email : RetrievedEmail) (rootId : String) :
    List (String × Email) :=
  let threadIds := threadEmails.map (fun te => te.message_id)
  let relevant := inThread.filter (fun r => r.message_id ∈ threadIds)
  setParent threadEmails email (setRelevant threadEmails relevant (setRoot threadEmails rootId m1))

/-- One iteration of `expandThreads`' loop over the merged emails.  The
in-thread `match_emails` call is issued with identical arguments on every
iteration, so its (deterministic) result is the single parameter `inThread`;
`fetchOk` tells whether the per-thread fetch succeeds (`if (error || !threadEmails) continue`). -/
def expandStep (db : List Email) (inThread : List MatchRow) (fetchOk : String → Bool)
    (m : List (String × Email)) (email : RetrievedEmail) : List (String × Email) :=
  let m1 := jsSet m email.message_id email.toEmailWithSimilarity.toEmail
  match email.thread_root_id with
  | none => m1
  | some rootId =>
    match fetchOk rootId with
    | false => m1
    | true =>
      let threadEmails := fetchThread db rootId
      if threadEmails.length ≤ maxPerThread then
        setAllEmails threadEmails m1
      else
        expandLarge threadEmails inThread m1 email rootId

/-- `expandThreads`: iterate over the merged emails and return the
deduplicated union (`Array.from(allEmails.values())`). -/
def expandThreads (db : List Email) (inThread : List MatchRow)
    (fetchOk : String → Bool) (emails : List RetrievedEmail) : List Email :=
  jsValues (emails.foldl (expandStep db inThread fetchOk) [])

theorem setAllEmails_wf (l : List Email) (m : List (String × Email))
    (hm : MapWF (fun e => e.message_id) m) :
    MapWF (fun e => e.message_id) (setAllEmails l m) := by
  induction l generalizing m with
  | nil => exact hm
  | cons x t ih => exact ih _ (mapWF_jsSet _ _ _ _ hm rfl)

theorem setRelevant_wf (te : List Email) (rel : List MatchRow) (m : List (String × Email))
    (hm : MapWF (fun e => e.message_id) m) :
    MapWF (fun e => e.message_id) (setRelevant te rel m) := by
  induction rel generalizing m with
  | nil => exact hm
  | cons x t ih =>
    unfold setRelevant at ih ⊢
    rw [List.foldl_cons]
    cases hf : te.find? (fun q => q.message_id = x.message_id) with
    | some full => exact ih _ (mapWF_jsSet _ _ _ _ hm rfl)
    | none => exact ih _ hm

theorem setRoot_wf (te : List Email) (rootId : String) (m : List (String × Email))
    (hm : MapWF (fun x => x.message_id) m) :
    MapWF (fun x => x.message_id) (setRoot te rootId m) := by
  unfold setRoot
  cases hf : te.find? (fun q => q.message_id = rootId) with
  | some root => exact mapWF_jsSet _ _ _ _ hm rfl
  | none => exact hm

theorem setParent_wf (te : List Email) (e : RetrievedEmail) (m : List (String × Email))
    (hm : MapWF (fun x => x.message_id) m) :
    MapWF (fun x => x.message_id) (setParent te e m) := by
  unfold setParent
  split
  · exact hm
  · split
    · exact mapWF_jsSet _ _ _ _ hm rfl
    · exact hm

theorem expandLarge_wf (te : List Email) (inThread : List MatchRow)
    (m1 : List (String × Email)) (e : RetrievedEmail) (rootId : String)
    (hm : MapWF (fun x => x.message_id) m1) :
    MapWF (fun x => x.message_id) (expandLarge te inThread m1 e rootId) :=
  setParent_wf te e _ (setRelevant_wf te _ _ (setRoot_wf te rootId m1 hm))

theorem expandStep_wf (db : List Email) (inThread : List MatchRow)
    (fetchOk : String → Bool) (m : List (String × Email)) (e : RetrievedEmail)
    (hm : MapWF (fun x => x.message_id) m) :
    MapWF (fun x => x.message_id) (expandStep db inThread fetchOk m e) := by
  have h1 : MapWF (fun x => x.message_id)
      (jsSet m e.message_id e.toEmailWithSimilarity.toEmail) :=
    mapWF_jsSet _ _ _ _ hm rfl
  unfold expandStep
  split
  · exact h1
  · split
    · exact h1
    · dsimp only
      split
      · exact setAllEmails_wf _ _ h1
      · exact expandLarge_wf _ _ _ _ _ h1

theorem expandStep_eq_noroot (db : List Email) (inThread : List MatchRow)
    (fetchOk : String → Bool) (m : List (String × Email)) (e : RetrievedEmail)
    (hroot : e.thread_root_id = none) :
    expandStep db inThread fetchOk m e
      = jsSet m e.message_id e.toEmailWithSimilarity.toEmail := by
  simp only [expandStep, hroot]

theorem expandStep_eq_nofetch (db : List Email) (inThread : List MatchRow)
    (fetchOk : String → Bool) (m : List (String × Email)) (e : RetrievedEmail)
    (rootId : String) (hroot : e.thread_root_id = some rootId)
    (hok : fetchOk rootId = false) :
    expandStep db inThread fetchOk m e
      = jsSet m e.message_id e.toEmailWithSimilarity.toEmail := by
  simp only [expandStep, hroot, hok]

theorem expandStep_eq_small (db : List Email) (inThread : List MatchRow)
    (fetchOk : String → Bool) (m : List (String × Email)) (e : RetrievedEmail)
    (rootId : String) (hroot : e.thread_root_id = some rootId)
    (hok : fetchOk rootId = true)
    (hsz : (fetchThread db rootId).length ≤ maxPerThread) :
    expandStep db inThread fetchOk m e
      = setAllEmails (fetchThread db rootId)
          (jsSet m e.message_id e.toEmailWithSimilarity.toEmail) := by
  simp only [expandStep, hroot, hok, hsz, if_true]

theorem expandStep_eq_large (db : List Email) (inThread : List MatchRow)
    (fetchOk : String → Bool) (m : List (String × Email)) (e : RetrievedEmail)
    (rootId : String) (hroot : e.thread_root_id = some rootId)
    (hok : fetchOk rootId = true)
    (hsz : ¬(fetchThread db rootId).length ≤ maxPerThread) :
    expandStep db inThread fetchOk m e
      = expandLarge (fetchThread db rootId) inThread
          (jsSet m e.message_id e.toEmailWithSimilarity.toEmail) e rootId := by
  simp only [expandStep, hroot, hok, hsz, if_false]

theorem setAllEmails_keys_mono (l : List Email) (m : List (String × Email)) (k : String)
    (h : k ∈ jsKeys m) : k ∈ jsKeys (setAllEmails l m) := by
  induction l generalizing m with
  | nil => exact h
  | cons x t ih => exact ih _ (mem_jsKeys_jsSet_of_mem _ _ _ _ h)

theorem setAllEmails_keys_cover (l : List Email) (m : List (String × Email))
    (te : Email) (hte : te ∈ l) : te.message_id ∈ jsKeys (setAllEmails l m) := by
  induction l generalizing m with
  | nil => simp at hte
  | cons x t ih =>
    rcases List.mem_cons.mp hte with hte | hte
    · subst hte
      exact setAllEmails_keys_mono t _ _ (mem_jsKeys_jsSet_self _ _ _)
    · exact ih _ hte

theorem setRelevant_keys_mono (te : List Email) (rel : List MatchRow)
    (m : List (String × Email)) (k : String) (h : k ∈ jsKeys m) :
    k ∈ jsKeys (setRelevant te rel m) := by
  induction rel generalizing m with
  | nil => exact h
  | cons x t ih =>
    unfold setRelevant at ih ⊢
    rw [List.foldl_cons]
    cases hf : te.find? (fun q => q.message_id = x.message_id) with
    | some full => exact ih _ (mem_jsKeys_jsSet_of_mem _ _ _ _ h)
    | none => exact ih _ h

theorem setRoot_keys_mono (te : List Email) (rootId : String) (m : List (String × Email))
    (k : String) (h : k ∈ jsKeys m) : k ∈ jsKeys (setRoot te rootId m) := by
  unfold setRoot
  cases hf : te.find? (fun q => q.message_id = rootId) with
  | some root => exact mem_jsKeys_jsSet_of_mem _ _ _ _ h
  | none => exact h

theorem setParent_keys_mono (te : List Email) (e : RetrievedEmail)
    (m : List (String × Email)) (k : String) (h : k ∈ jsKeys m) :
    k ∈ jsKeys (setParent te e m) := by
  unfold setParent
  split
  · exact h
  · split
    · exact mem_jsKeys_jsSet_of_mem _ _ _ _ h
    · exact h

theorem expandLarge_keys_mono (te : List Email) (inThread : List MatchRow)
    (m1 : List (String × Email)) (e : RetrievedEmail) (rootId : String) (k : String)
    (h : k ∈ jsKeys m1) : k ∈ jsKeys (expandLarge te inThread m1 e rootId) :=
  setParent_keys_mono te e _ k
    (setRelevant_keys_mono te _ _ k (setRoot_keys_mono te rootId m1 k h))

theorem expandStep_keys_mono (db : List Email) (inThread : List MatchRow)
    (fetchOk : String → Bool) (m : List (String × Email)) (e : RetrievedEmail)
    (k : String) (h : k ∈ jsKeys m) :
    k ∈ jsKeys (expandStep db inThread fetchOk m e) := by
  have h1 : k ∈ jsKeys (jsSet m e.message_id e.toEmailWithSimilarity.toEmail) :=
    mem_jsKeys_jsSet_of_mem _ _ _ _ h
  unfold expandStep
  split
  · exact h1
  · split
    · exact h1
    · dsimp only
      split
      · exact setAllEmails_keys_mono _ _ _ h1
      · exact expandLarge_keys_mono _ _ _ _ _ _ h1

theorem expandFold_keys_mono (db : List Email) (inThread : List MatchRow)
    (fetchOk : String → Bool) (emails : List RetrievedEmail)
    (m : List (String × Email)) (k : String) (h : k ∈ jsKeys m) :
    k ∈ jsKeys (emails.foldl (expandStep db inThread fetchOk) m) := by
  induction emails generalizing m with
  | nil => exact h
  | cons x t ih =>
    rw [List.foldl_cons]
    exact ih _ (expandStep_keys_mono db inThread fetchOk m x k h)

theorem expandFold_wf (db : List Email) (inThread : List MatchRow)
    (fetchOk : String → Bool) (emails : List RetrievedEmail)
    (m : List (String × Email)) (hm : MapWF (fun x => x.message_id) m) :
    MapWF (fun x => x.message_id) (emails.foldl (expandStep db inThread fetchOk) m) := by
  induction emails generalizing m with
  | nil => exact hm
  | cons x t ih =>
    rw [List.foldl_cons]
    exact ih _ (expandStep_wf db inThread fetchOk m x hm)

theorem fetchThread_all_of_small (db : List Email) (rootId : String)
    (hsmall : (db.filter (fun x => x.thread_root_id = some rootId)).length ≤ maxPerThread) :
    ∀ x ∈ db.filter (fun x => x.thread_root_id = some rootId), x ∈ fetchThread db rootId := by
  intro x hx
  unfold fetchThread
  have hperm := stSort_perm dateBeforeE (db.filter (fun x => x.thread_root_id = some rootId))
  have hlen : (stSort dateBeforeE
      (db.filter (fun x => x.thread_root_id = some rootId))).length ≤ maxPerThread + 5 := by
    rw [hperm.length_eq]
    omega
  rw [List.take_of_length_le hlen]
  exact hperm.mem_iff.mpr hx

theorem fetchThread_small_length (db : List Email) (rootId : String)
    (hsmall : (db.filter (fun x => x.thread_root_id = some rootId)).length ≤ maxPerThread) :
    (fetchThread db rootId).length ≤ maxPerThread := by
  unfold fetchThread
  have hperm := stSort_perm dateBeforeE (db.filter (fun x => x.thread_root_id = some rootId))
  have hlen : (stSort dateBeforeE
      (db.filter (fun x => x.thread_root_id = some rootId))).length ≤ maxPerThread + 5 := by
    rw [hperm.length_eq]
    omega
  rw [List.take_of_length_le hlen, hperm.length_eq]
  exact hsmall

theorem expandFold_small_covers (db : List Email) (inThread : List MatchRow)
    (fetchOk : String → Bool) (emails : List RetrievedEmail) (e : RetrievedEmail)
    (rootId : String) (he : e ∈ emails) (hroot : e.thread_root_id = some rootId)
    (hok : fetchOk rootId = true)
    (hsz : (fetchThread db rootId).length ≤ maxPerThread)
    (te : Email) (hte : te ∈ fetchThread db rootId) :
    ∀ m, te.message_id ∈ jsKeys (emails.foldl (expandStep db inThread fetchOk) m) := by
  induction emails with
  | nil => simp at he
  | cons x t ih =>
    intro m
    rw [List.foldl_cons]
    rcases List.mem_cons.mp he with hx | hx
    · subst hx
      apply expandFold_keys_mono
      rw [expandStep_eq_small db inThread fetchOk m e rootId hroot hok hsz]
      exact setAllEmails_keys_cover _ _ te hte
    · exact ih hx _

theorem setRelevant_length_le (te : List Email) (rel : List MatchRow)
    (m : List (String × Email)) :
    (setRelevant te rel m).length ≤ m.length + rel.length := by
  induction rel generalizing m with
  | nil => simp [setRelevant]
  | cons x t ih =>
    unfold setRelevant at ih ⊢
    rw [List.foldl_cons]
    cases hf : te.find? (fun q => q.message_id = x.message_id) with
    | some full =>
      calc (t.foldl _ (jsSet m full.message_id full)).length
          ≤ (jsSet m full.message_id full).length + t.length := ih _
        _ ≤ (m.length + 1) + t.length := by
            have := jsSet_length_le m full.message_id full
            omega
        _ = m.length + (x :: t).length := by simp; omega
    | none =>
      calc (t.foldl _ m).length ≤ m.length + t.length := ih _
        _ ≤ m.length + (x :: t).length := by simp

theorem setRoot_length_le (te : List Email) (rootId : String)
    (m : List (String × Email)) : (setRoot te rootId m).length ≤ m.length + 1 := by
  unfold setRoot
  split
  · exact jsSet_length_le _ _ _
  · omega

theorem setParent_length_le (te : List Email) (e : RetrievedEmail)
    (m : List (String × Email)) : (setParent te e m).length ≤ m.length + 1 := by
  unfold setParent
  split
  · omega
  · split
    · exact jsSet_length_le _ _ _
    · omega

theorem expandLarge_length_le (te : List Email) (inThread : List MatchRow)
    (m1 : List (String × Email)) (e : RetrievedEmail) (rootId : String) :
    (expandLarge te inThread m1 e rootId).length
      ≤ m1.length
        + (inThread.filter
            (fun r => r.message_id ∈ te.map (fun q : Email => q.message_id))).length
        + 2 := by
  have h2 := setRoot_length_le te rootId m1
  have h3 := setRelevant_length_le te
    (inThread.filter (fun r => r.message_id ∈ te.map (fun q : Email => q.message_id)))
    (setRoot te rootId m1)
  have h4 := setParent_length_le te e
    (setRelevant te
      (inThread.filter (fun r => r.message_id ∈ te.map (fun q : Email => q.message_id)))
      (setRoot te rootId m1))
  unfold expandLarge
  dsimp only
  omega

theorem setRelevant_values_subset (te : List Email) (rel : List MatchRow)
    (m : List (String × Email)) :
    ∀ v ∈ jsValues (setRelevant te rel m), v ∈ jsValues m ∨ v ∈ te := by
  induction rel generalizing m with
  | nil => exact fun v hv => Or.inl hv
  | cons x t ih =>
    intro v hv
    unfold setRelevant at hv
    rw [List.foldl_cons] at hv
    cases hf : te.find? (fun q => q.message_id = x.message_id) with
    | some full =>
      rw [hf] at hv
      rcases ih _ v hv with hv' | hv'
      · rcases jsValues_jsSet_subset m full.message_id full v hv' with h | h
        · right
          rw [h]
          exact List.mem_of_find?_eq_some hf
        · exact Or.inl h
      · exact Or.inr hv'
    | none =>
      rw [hf] at hv
      exact ih _ v hv

theorem setRoot_values_subset (te : List Email) (rootId : String)
    (m : List (String × Email)) :
    ∀ v ∈ jsValues (setRoot te rootId m), v ∈ jsValues m ∨ v ∈ te := by
  intro v hv
  unfold setRoot at hv
  cases hf : te.find? (fun q => q.message_id = rootId) with
  | some root =>
    rw [hf] at hv
    rcases jsValues_jsSet_subset m root.message_id root v hv with h | h
    · right
      rw [h]
      exact List.mem_of_find?_eq_some hf
    · exact Or.inl h
  | none =>
    rw [hf] at hv
    exact Or.inl hv

theorem setParent_values_subset (te : List Email) (e : RetrievedEmail)
    (m : List (String × Email)) :
    ∀ v ∈ jsValues (setParent te e m), v ∈ jsValues m ∨ v ∈ te := by
  intro v hv
  unfold setParent at hv
  split at hv
  · exact Or.inl hv
  · split at hv
    · rename_i parent hf
      rcases jsValues_jsSet_subset m parent.message_id parent v hv with h | h
      · right
        rw [h]
        exact List.mem_of_find?_eq_some hf
      · exact Or.inl h
    · exact Or.inl hv

theorem expandLarge_values_subset (te : List Email) (inThread : List MatchRow)
    (m1 : List (String × Email)) (e : RetrievedEmail) (rootId : String) :
    ∀ v ∈ jsValues (expandLarge te inThread m1 e rootId),
      v ∈ jsValues m1 ∨ v ∈ te := by
  intro v hv
  rcases setParent_values_subset te e _ v hv with h | h
  · rcases setRelevant_values_subset te _ _ v h with h2 | h2
    · rcases setRoot_values_subset te rootId m1 v h2 with h3 | h3
      · exact Or.inl h3
      · exact Or.inr h3
    · exact Or.inr h2
  · exact Or.inr h

/-- C5 (amended).  For a single matched message in a thread whose fetch
returns more than 30 messages, thread expansion includes at most 13 messages:
the matched message itself, plus at most 12 others (the thread root, the
matched message's direct parent, and up to 10 relevance-selected in-thread
messages); every included message other than the matched one comes from the
thread fetch, so the relevance-selected messages are restricted to
identifiers present in the thread and the thread's own message count is never
exceeded. -/
theorem expandThreads_large_thread_bound (db : List Email) (inThread : List MatchRow)
    (fetchOk : String → Bool) (e : RetrievedEmail) (rootId : String)
    (hroot : e.thread_root_id = some rootId)
    (hlen : inThread.length ≤ maxRelevantWithinThread)
    (hbig : ¬(fetchThread db rootId).length ≤ maxPerThread) :
    (expandThreads db inThread fetchOk [e]).length ≤ 13
    ∧ ∀ msg ∈ expandThreads db inThread fetchOk [e],
        msg.message_id = e.message_id ∨ msg ∈ fetchThread db rootId := by
  have hstep : expandThreads db inThread fetchOk [e]
      = jsValues (expandStep db inThread fetchOk [] e) := rfl
  have hm1 : jsSet ([] : List (String × Email)) e.message_id e.toEmailWithSimilarity.toEmail
      = [(e.message_id, e.toEmailWithSimilarity.toEmail)] := rfl
  cases hfo : fetchOk rootId with
  | false =>
    rw [hstep, expandStep_eq_nofetch db inThread fetchOk [] e rootId hroot hfo, hm1]
    constructor
    · simp [jsValues]
    · intro msg hmsg
      left
      simp only [jsValues, List.map_cons, List.map_nil, List.mem_singleton] at hmsg
      rw [hmsg]
  | true =>
    rw [hstep, expandStep_eq_large db inThread fetchOk [] e rootId hroot hfo hbig, hm1]
    constructor
    · have h1 := expandLarge_length_le (fetchThread db rootId) inThread
        [(e.message_id, e.toEmailWithSimilarity.toEmail)] e rootId
      have h2 : (inThread.filter
          (fun r => r.message_id ∈ (fetchThread db rootId).map
            (fun q => q.message_id))).length ≤ inThread.length :=
        List.length_filter_le _ _
      have h3 : (jsValues (expandLarge (fetchThread db rootId) inThread
          [(e.message_id, e.toEmailWithSimilarity.toEmail)] e rootId)).length
          = (expandLarge (fetchThread db rootId) inThread
              [(e.message_id, e.toEmailWithSimilarity.toEmail)] e rootId).length := by
        simp [jsValues]
      rw [h3]
      unfold maxRelevantWithinThread at hlen
      simp only [List.length_cons, List.length_nil] at h1
      omega
    · intro msg hmsg
      rcases expandLarge_values_subset (fetchThread db rootId) inThread
          [(e.message_id, e.toEmailWithSimilarity.toEmail)] e rootId msg hmsg with h | h
      · left
        simp only [jsValues, List.map_cons, List.map_nil, List.mem_singleton] at h
        rw [h]
      · exact Or.inr h

/-- C6.  For every merged message whose thread has at most 30 messages (and
whose per-thread fetch succeeds), thread expansion's output contains every
message identifier of that thread exactly once: none missing, none
duplicated. -/
theorem expandThreads_small_thread_complete (db : List Email) (inThread : List MatchRow)
    (fetchOk : String → Bool) (emails : List RetrievedEmail) (e : RetrievedEmail)
    (rootId : String) (he : e ∈ emails) (hroot : e.thread_root_id = some rootId)
    (hok : fetchOk rootId = true)
    (hsmall : (db.filter (fun x => x.thread_root_id = some rootId)).length ≤ maxPerThread) :
    ∀ id ∈ (db.filter (fun x => x.thread_root_id = some rootId)).map (fun x => x.message_id),
      ((expandThreads db inThread fetchOk emails).map (fun x => x.message_id)).count id
        = 1 := by
  intro id hid
  have hwf := expandFold_wf db inThread fetchOk emails [] (mapWF_nil _)
  obtain ⟨te, hte_mem, hte_id⟩ := List.mem_map.mp hid
  have hteF : te ∈ fetchThread db rootId :=
    fetchThread_all_of_small db rootId hsmall te hte_mem
  have hkey : id ∈ jsKeys (emails.foldl (expandStep db inThread fetchOk) []) := by
    rw [← hte_id]
    exact expandFold_small_covers db inThread fetchOk emails e rootId he hroot hok
      (fetchThread_small_length db rootId hsmall) te hteF []
  have hids : (expandThreads db inThread fetchOk emails).map (fun x => x.message_id)
      = jsKeys (emails.foldl (expandStep db inThread fetchOk) []) :=
    jsValues_key_eq (fun x : Email => x.message_id) _ hwf
  rw [hids]
  exact List.count_eq_one_of_mem hwf.1 hkey

/-- A thread-fetch oracle that always succeeds. -/
def alwaysOk : String → Bool := fun _ => true

/-- A `match_emails` row for concrete inputs. -/
def mkRow (i : String) : MatchRow :=
  { id := i, message_id := i, subject := "s", author_name := none, author_email := none,
    date := 0, body_new_content := none, source_url := none, thread_root_id := some "R",
    thread_depth := 0, similarity := 1 }

/-- Identifiers of the filler messages of the large concrete thread. -/
def tIds : List String :=
  ["t00", "t01", "t02", "t03", "t04", "t05", "t06", "t07", "t08", "t09",
   "t10", "t11", "t12", "t13", "t14", "t15", "t16", "t17", "t18", "t19",
   "t20", "t21", "t22", "t23", "t24", "t25", "t26", "t27"]

/-- A 31-message thread rooted at `R`: root, a parent `p`, the matched message
`me`, and 28 fillers. -/
def dbBig : List Email :=
  mkEmail "R" 0 (some "R") none :: mkEmail "p" 1 (some "R") (some "R")
    :: mkEmail "me" 2 (some "R") (some "p")
    :: tIds.map (fun s => mkEmail s 3 (some "R") (some "R"))

/-- Ten in-thread relevance hits, none of which is `R`, `p` or `me`. -/
def inThreadBig : List MatchRow := (tIds.take 10).map mkRow

/-- The matched message of the large thread, with its parent `p`. -/
def eBig : RetrievedEmail :=
  toRetrieved
    { toEmail := mkEmail "me" 2 (some "R") (some "p"), similarity := none, rank := none } 0

/-- Counterexample to C5 as stated: in a thread of 31 messages, expansion
emits 13 messages of that thread (matched message + root + parent + 10
relevance-selected), exceeding the stated bound of 12. -/
theorem expandThreads_large_thread_cex :
    30 < (dbBig.filter (fun x => x.thread_root_id = some "R")).length
    ∧ ((expandThreads dbBig inThreadBig alwaysOk [eBig]).filter
        (fun x => x.thread_root_id = some "R")).length = 13 := by
  constructor
  · decide
  · decide

/-- Witness for the amended C5 at the concrete 31-message thread. -/
theorem expandThreads_large_thread_bound_witness :
    (eBig.thread_root_id = some "R"
      ∧ inThreadBig.length ≤ maxRelevantWithinThread
      ∧ ¬(fetchThread dbBig "R").length ≤ maxPerThread)
    ∧ ((expandThreads dbBig inThreadBig alwaysOk [eBig]).length ≤ 13
      ∧ ∀ msg ∈ expandThreads dbBig inThreadBig alwaysOk [eBig],
          msg.message_id = eBig.message_id ∨ msg ∈ fetchThread dbBig "R") :=
  ⟨⟨rfl, by decide, by decide⟩,
    expandThreads_large_thread_bound dbBig inThreadBig alwaysOk eBig "R" rfl
      (by decide) (by decide)⟩

/-- A 3-message thread rooted at `R`. -/
def dbSmall : List Email :=
  [mkEmail "R" 0 (some "R") none, mkEmail "m2" 1 (some "R") (some "R"),
   mkEmail "m3" 2 (some "R") (some "m2")]

/-- The matched message of the small thread. -/
def eSmall : RetrievedEmail :=
  toRetrieved
    { toEmail := mkEmail "m2" 1 (some "R") (some "R"), similarity := none, rank := none } 0

/-- Witness for C6 at the concrete 3-message thread. -/
theorem expandThreads_small_thread_complete_witness :
    (eSmall ∈ [eSmall]
      ∧ eSmall.thread_root_id = some "R"
      ∧ alwaysOk "R" = true
      ∧ (dbSmall.filter (fun x => x.thread_root_id = some "R")).length ≤ maxPerThread)
    ∧ ∀ id ∈ (dbSmall.filter (fun x => x.thread_root_id = some "R")).map
        (fun x => x.message_id),
        ((expandThreads dbSmall [] alwaysOk [eSmall]).map (fun x => x.message_id)).count id
          = 1 :=
  ⟨⟨List.mem_singleton.mpr rfl, rfl, rfl, by decide⟩,
    expandThreads_small_thread_complete dbSmall [] alwaysOk [eSmall] eSmall "R"
      (List.mem_singleton.mpr rfl) rfl rfl (by decide)⟩

/-- Witness for C1 at the worked example of the specification: vector matches
with similarities 0.9 and 0.4, one lexical match (rank 5) on the first
identifier; the shared message scores `0.9*0.6 + (5/5)*0.4 = 0.94`. -/
theorem mergeAndRerank_score_formula_witness :
    (([mkVec "A" 0.9, mkVec "B" 0.4].map (fun e => e.message_id)).Nodup
      ∧ ([mkKw "A" 5].map (fun e => e.message_id)).Nodup
      ∧ toRetrieved (mkVec "A" 0.9) (47/50)
          ∈ mergeAndRerank [mkVec "A" 0.9, mkVec "B" 0.4] [mkKw "A" 5] 10)
    ∧ (toRetrieved (mkVec "A" 0.9) (47/50)).hybrid_score
        = ((mkVec "A" 0.9).similarity.getD 0) * vectorWeight
          + (((mkKw "A" 5).rank.getD 0) / maxRankOf [mkKw "A" 5]) * keywordWeight :=
  ⟨⟨by decide, by decide, by decide!⟩,
    (mergeAndRerank_score_formula [mkVec "A" 0.9, mkVec "B" 0.4] [mkKw "A" 5]
        (by decide) (by decide) (toRetrieved (mkVec "A" 0.9) (47/50)) (by decide!)).1
      (mkVec "A" 0.9) (by decide!) (by decide) (mkKw "A" 5) (by decide!) (by decide)⟩

/-! ## Step 5: context assembly (`assembleContext`, `src/lib/rag.ts` lines 271-286) -/

/-- JavaScript `||` on an optional string: the empty string is falsy. -/
def jsOrStr (a : Option String) (b : String) : String :=
  match a with
  | some s => if s = "" then b else s
  | none => b

/-- `formatEmailForContext`: the fixed-format block for one email (`date`
rendered from the numeric timestamp), body truncated to 1500 characters with
an explicit marker when cut. -/
def formatEmailForContext (email : Email) (index : Nat) : String :=
  let body := jsOrStr email.body_new_content (jsOrStr email.body_cleaned "(no body)")
  let truncatedBody := body.take 1500
  "--- Email " ++ toString (index + 1) ++ " ---\n"
    ++ "From: " ++ email.author_name.getD "Unknown" ++ " <" ++ email.author_email.getD "" ++ ">\n"
    ++ "Date: " ++ toString email.date ++ "\n"
    ++ "Subject: " ++ email.subject ++ "\n"
    ++ (match email.source_url with
        | some u => "URL: " ++ u
        | none => "") ++ "\n\n"
    ++ truncatedBody
    ++ (if 1500 < body.length then "\n[... truncated ...]" else "")

/-- `MAX_EMAILS_IN_CONTEXT`. -/
def maxEmailsInContext : Nat := 20

/-- The output of context assembly: the concatenated text block and the list
of messages actually included. -/
structure AssembledContext where
  context : String
  contextEmails : List Email
deriving Repr

/-- `assembleContext`: sort every expanded email by date ascending, cap to 20,
render.  The `matchedEmails` argument is accepted (as in the source) but not
used by the limiting logic. -/
def assembleContext (matchedEmails : List RetrievedEmail)
    (allContextEmails : List Email) : AssembledContext :=
  let sorted := stSort dateBeforeE allContextEmails
  let limited := sorted.take maxEmailsInContext
  { context := String.intercalate "\n\n"
      (limited.enum.map (fun p => formatEmailForContext p.2 p.1)),
    contextEmails := limited }

theorem dateBeforeE_asymm (a b : Email) (h : dateBeforeE a b = true) :
    dateBeforeE b a = false := by
  simp only [dateBeforeE, decide_eq_true_eq] at h
  simp only [dateBeforeE, decide_eq_false_iff_not]
  omega

theorem dateBeforeE_trans (a b c : Email) (h1 : dateBeforeE a b = true)
    (h2 : dateBeforeE c b = false) : dateBeforeE a c = true := by
  simp only [dateBeforeE, decide_eq_true_eq] at h1 ⊢
  simp only [dateBeforeE, decide_eq_false_iff_not] at h2
  omega

theorem stSort_dates_sorted (l : List Email) :
    (stSort dateBeforeE l).Pairwise (fun a b => a.date ≤ b.date) := by
  have h := stSort_pairwise dateBeforeE (fun _ _ => True) dateBeforeE_asymm
    dateBeforeE_trans (fun _ _ _ => trivial) l
    (List.pairwise_of_forall_mem_list (fun _ _ _ _ => trivial))
  refine h.imp ?_
  intro a b hab
  have := hab.1
  simp only [dateBeforeE, decide_eq_false_iff_not] at this
  omega

/-- C7.  For every input, the list of messages actually included in the
assembled context has length at most 20 and is in non-decreasing timestamp
order. -/
theorem assembleContext_bounded_chronological (matched : List RetrievedEmail)
    (all : List Email) :
    (assembleContext matched all).contextEmails.length ≤ 20
    ∧ (assembleContext matched all).contextEmails.Pairwise
        (fun a b => a.date ≤ b.date) := by
  constructor
  · exact List.length_take_le _ _
  · exact List.Pairwise.sublist (List.take_sublist _ _) (stSort_dates_sorted all)

/-- C10.  Whenever the expanded set exceeds 20 messages, the assembler keeps
exactly 20 messages forming an earliest-by-timestamp selection of the input
(every kept message's timestamp is at most every dropped message's), and the
result does not depend on the matched emails' scores at all. -/
theorem assembleContext_keeps_earliest (matched : List RetrievedEmail)
    (all : List Email) (h : 20 < all.length) :
    (assembleContext matched all).contextEmails.length = 20
    ∧ (∃ dropped,
        List.Perm ((assembleContext matched all).contextEmails ++ dropped) all
        ∧ ∀ a ∈ (assembleContext matched all).contextEmails, ∀ b ∈ dropped,
            a.date ≤ b.date)
    ∧ ∀ matched' : List RetrievedEmail,
        assembleContext matched' all = assembleContext matched all := by
  have hlen := (stSort_perm dateBeforeE all).length_eq
  refine ⟨?_, ⟨(stSort dateBeforeE all).drop 20, ?_, ?_⟩, fun _ => rfl⟩
  · show ((stSort dateBeforeE all).take 20).length = 20
    rw [List.length_take]
    omega
  · show List.Perm ((stSort dateBeforeE all).take 20 ++ (stSort dateBeforeE all).drop 20) all
    rw [List.take_append_drop]
    exact stSort_perm dateBeforeE all
  · intro a ha b hb
    have hsorted := stSort_dates_sorted all
    have hsplit : stSort dateBeforeE all
        = (stSort dateBeforeE all).take 20 ++ (stSort dateBeforeE all).drop 20 :=
      (List.take_append_drop _ _).symm
    rw [hsplit] at hsorted
    exact (List.pairwise_append.mp hsorted).2.2 a ha b hb

/-- Twenty-one emails with distinct timestamps. -/
def all21 : List Email := (tIds.take 21).enum.map (fun p => mkEmail p.2 p.1 none none)

/-- Witness for C10 at a concrete 21-email expanded set. -/
theorem assembleContext_keeps_earliest_witness :
    20 < all21.length
    ∧ ((assembleContext [] all21).contextEmails.length = 20
      ∧ (∃ dropped,
          List.Perm ((assembleContext [] all21).contextEmails ++ dropped) all21
          ∧ ∀ a ∈ (assembleContext [] all21).contextEmails, ∀ b ∈ dropped,
              a.date ≤ b.date)
      ∧ ∀ matched' : List RetrievedEmail,
          assembleContext matched' all21 = assembleContext [] all21) :=
  ⟨by decide, assembleContext_keeps_earliest [] all21 (by decide)⟩

/-! ## Step 6: LLM invocation (`callGroq`/`callClaude`/`callLLM`) -/

/-- Groq model tiers (`callGroq`): the larger model for complex multi-thread
questions. -/
def groqModelFor (isComplex : Bool) : String :=
  if isComplex then "llama-3.3-70b-versatile" else "llama-3.1-8b-instant"

/-- Claude model tiers (`callClaude`). -/
def claudeModelFor (isComplex : Bool) : String :=
  if isComplex then "claude-sonnet-4-6" else "claude-haiku-4-5"

/-- `response.choices[0]?.message?.content ?? "No answer generated."` — the
optional provider content, `none` standing for a missing choice/message or a
null content (`??` applies only to null/undefined, not to `""`). -/
def callGroqText (content : Option String) : String :=
  content.getD "No answer generated."

/-- One block of an Anthropic response's `content` array. -/
structure ClaudeBlock where
  btype : String
  text : String
deriving DecidableEq, Repr

/-- `response.content.find(b => b.type === "text")?.text ?? "No answer generated."` -/
def callClaudeText (blocks : List ClaudeBlock) : String :=
  match blocks.find? (fun b => b.btype = "text") with
  | some b => b.text
  | none => "No answer generated."

/-! ## Step 7: source extraction (`extractSources`) and helpers from
`src/lib/utils.ts` -/

/-- `truncate` (`src/lib/utils.ts`). -/
def truncate (text : String) (maxLength : Nat) : String :=
  if text.length ≤ maxLength then text else text.take (maxLength - 3) ++ "..."

/-- Collapse every run of whitespace to a single space
(`.replace(/\n+/g, " ").replace(/\s+/g, " ")`). -/
def squeezeWs : List Char → List Char
  | [] => []
  | [c] => [if c.isWhitespace then ' ' else c]
  | a :: b :: t =>
    if a.isWhitespace && b.isWhitespace then squeezeWs (b :: t)
    else (if a.isWhitespace then ' ' else a) :: squeezeWs (b :: t)

/-- `.trim()`. -/
def trimWs (l : List Char) : List Char :=
  ((l.dropWhile Char.isWhitespace).reverse.dropWhile Char.isWhitespace).reverse

/-- `getExcerpt` (`src/lib/utils.ts`): body (new content `||` cleaned `||` ""),
whitespace collapsed and trimmed, truncated. -/
def getExcerpt (email : Email) (maxLength : Nat) : String :=
  let body := jsOrStr email.body_new_content (jsOrStr email.body_cleaned "")
  truncate (String.mk (trimWs (squeezeWs body.data))) maxLength

/-- `needle.isPrefixOf haystack` on character lists. -/
def isPrefixListB : List Char → List Char → Bool
  | [], _ => true
  | _ :: _, [] => false
  | a :: as, b :: bs => a = b && isPrefixListB as bs

/-- `haystack` contains `needle` as a contiguous run. -/
def isInfixListB (n : List Char) : List Char → Bool
  | [] => isPrefixListB n []
  | c :: t => isPrefixListB n (c :: t) || isInfixListB n t

/-- JavaScript `s.includes(t)`. -/
def strIncludes (s t : String) : Bool :=
  isInfixListB t.data s.data

/-- The comparator of `extractSources`' sort: descending score. -/
def scoredBefore (a b : Email × ℚ) : Bool :=
  decide (b.2 < a.2)

/-- `extractSources`: seed each context email's score from the merge-stage
hybrid score (0 if absent), add 0.2 when the (truthy) author name appears
case-insensitively in the answer, sort descending, take 5, clamp to 1. -/
def extractSources (answer : String) (contextEmails : List Email)
    (matchedEmails : List RetrievedEmail) : List SourceEmail :=
  let matchedScores := matchedEmails.foldl
    (fun m e => jsSet m e.message_id e.hybrid_score) ([] : List (String × ℚ))
  let mentionedAuthors := contextEmails.foldl
    (fun s e =>
      match e.author_name with
      | some n =>
        if n ≠ "" ∧ strIncludes answer.toLower n.toLower then
          (if n ∈ s then s else s ++ [n])
        else s
      | none => s)
    ([] : List String)
  let scored := contextEmails.map (fun email =>
    let base := (jsGet matchedScores email.message_id).getD 0
    let score := match email.author_name with
      | some n => if n ≠ "" ∧ n ∈ mentionedAuthors then base + 0.2 else base
      | none => base
    (email, score))
  let top := (stSort scoredBefore scored).take 5
  top.map (fun p =>
    { message_id := p.1.message_id, subject := p.1.subject,
      author_name := p.1.author_name, date := p.1.date,
      excerpt := getExcerpt p.1 200, source_url := p.1.source_url,
      relevance_score := min p.2 1 })

/-! ## The orchestrator (`askQuestion`), over an environment of external-call
outcomes -/

/-- Convert a `match_emails` row to an email as `vectorSearch` does
(`in_reply_to: null`, `references_ids: []`, `body_clean: null`,
`month_period: null`, `created_at: now` — modelled as the constant 0). -/
def matchRowToEmail (row : MatchRow) : EmailWithSimilarity :=
  { id := row.id, message_id := row.message_id, in_reply_to := none,
    references_ids := [], subject := row.subject, author_name := row.author_name,
    author_email := row.author_email, date := row.date, body_cleaned := none,
    body_new_content := row.body_new_content, source_url := row.source_url,
    month_period := none, thread_root_id := row.thread_root_id,
    thread_depth := row.thread_depth, created_at := 0,
    similarity := some row.similarity, rank := none }

/-- Convert a `search_emails_fts` row to an email as `keywordSearch` does. -/
def kwRowToEmail (row : KwRow) : EmailWithSimilarity :=
  { id := row.id, message_id := row.message_id, in_reply_to := none,
    references_ids := [], subject := row.subject, author_name := row.author_name,
    author_email := row.author_email, date := row.date, body_cleaned := none,
    body_new_content := row.body_new_content, source_url := row.source_url,
    month_period := none, thread_root_id := row.thread_root_id,
    thread_depth := row.thread_depth, created_at := 0,
    similarity := none, rank := some row.rank }

/-- `vectorSearch`: on an RPC error, log and return `[]`; otherwise map the
rows (`(data ?? []).map(...)`). -/
def vectorSearch (outcome : Except String (List MatchRow)) : List EmailWithSimilarity :=
  match outcome with
  | .error _ => []
  | .ok data => data.map matchRowToEmail

/-- `keywordSearch`: on an RPC error, log and return `[]`. -/
def keywordSearch (outcome : Except String (List KwRow)) : List EmailWithSimilarity :=
  match outcome with
  | .error _ => []
  | .ok data => data.map kwRowToEmail

/-- The outcomes of every external call a single `askQuestion` request makes:
embedding, the two search RPCs, the thread fetches, the in-thread relevance
RPC, and the language-model provider (selected by `LLM_PROVIDER`). -/
structure Env where
  embedResult : Except String (List ℚ)
  vectorRpc : Except String (List MatchRow)
  keywordRpc : Except String (List KwRow)
  db : List Email
  inThread : List MatchRow
  fetchOk : String → Bool
  useAnthropic : Bool
  groqOutcome : Except String (Option String)
  claudeOutcome : Except String (List ClaudeBlock)
  queryId : String

/-- The observable outcome of one pipeline run: the `RAGResult` fields plus
the number of language-model calls made and the model tier used. -/
structure PipelineTrace where
  answer : String
  sources : List SourceEmail
  thread_ids : List String
  query_id : String
  llmCalls : Nat
  modelUsed : Option String
deriving DecidableEq, Repr

/-- JavaScript `Set` construction: first-occurrence deduplication in insertion
order. -/
def jsSetDedup {α : Type*} [DecidableEq α] (l : List α) : List α :=
  l.foldl (fun acc x => if x ∈ acc then acc else acc ++ [x]) []

/-- `callLLM`: Claude only when `LLM_PROVIDER=anthropic`, Groq otherwise;
a provider error propagates (synthesis failure is fatal). -/
def callLLMRun (env : Env) (isComplex : Bool) : Except String String :=
  if env.useAnthropic then
    match env.claudeOutcome with
    | .error e => .error e
    | .ok blocks => .ok (callClaudeText blocks)
  else
    match env.groqOutcome with
    | .error e => .error e
    | .ok content => .ok (callGroqText content)

/-- The model tier the provider call uses. -/
def modelFor (env : Env) (isComplex : Bool) : String :=
  if env.useAnthropic then claudeModelFor isComplex else groqModelFor isComplex

/-- The fixed empty-result answer of `askQuestion`. -/
def noResultsAnswer : String :=
  "No relevant discussions found for your question. The archive may not contain information on this specific topic."

/-- The merged (pre-expansion) matches of a run. -/
def mergedOf (env : Env) : List RetrievedEmail :=
  mergeAndRerank (vectorSearch env.vectorRpc) (keywordSearch env.keywordRpc) 10

/-- `askQuestion` (`src/lib/rag.ts` lines 434-486): embed (a failure
propagates — there is no `try`/`catch` around `generateEmbedding`), search
both ways, merge, short-circuit on an empty merge, expand threads, assemble
context, pick the model tier by `uniqueThreads.size >= 3` (a `Set` of
`thread_root_id` values, `null` included), call the model, extract sources,
and return thread identifiers filtered by `filter(Boolean)`. -/
def askQuestionRun (env : Env) (question : String) : Except String PipelineTrace :=
  match env.embedResult with
  | .error e => .error e
  | .ok _queryEmbedding =>
    let vectorResults := vectorSearch env.vectorRpc
    let kwResults := keywordSearch env.keywordRpc
    let merged := mergeAndRerank vectorResults kwResults 10
    if merged.length = 0 then
      .ok { answer := noResultsAnswer, sources := [], thread_ids := [],
            query_id := env.queryId, llmCalls := 0, modelUsed := none }
    else
      let expandedEmails := expandThreads env.db env.inThread env.fetchOk merged
      let ctx := assembleContext merged expandedEmails
      let uniqueThreads := jsSetDedup (merged.map (fun e => e.thread_root_id))
      let isComplex := decide (3 ≤ uniqueThreads.length)
      match callLLMRun env isComplex with
      | .error e => .error e
      | .ok answer =>
        let sources := extractSources answer ctx.contextEmails merged
        let threadIds := uniqueThreads.filterMap (fun x =>
          match x with
          | some s => if s = "" then none else some s
          | none => none)
        .ok { answer := answer, sources := sources, thread_ids := threadIds,
              query_id := env.queryId, llmCalls := 1,
              modelUsed := some (modelFor env isComplex) }

deriving instance DecidableEq for Except

theorem jsSetDedup_fold_mem {α : Type*} [DecidableEq α] (l acc : List α) (x : α) :
    (x ∈ l.foldl (fun acc y => if y ∈ acc then acc else acc ++ [y]) acc)
      ↔ x ∈ acc ∨ x ∈ l := by
  induction l generalizing acc with
  | nil => simp
  | cons y t ih =>
    rw [List.foldl_cons]
    by_cases hy : y ∈ acc
    · rw [if_pos hy, ih]
      constructor
      · rintro (h | h)
        · exact Or.inl h
        · exact Or.inr (List.mem_cons_of_mem y h)
      · rintro (h | h)
        · exact Or.inl h
        · rcases List.mem_cons.mp h with h | h
          · subst h
            exact Or.inl hy
          · exact Or.inr h
    · rw [if_neg hy, ih]
      constructor
      · rintro (h | h)
        · rcases List.mem_append.mp h with h | h
          · exact Or.inl h
          · simp only [List.mem_singleton] at h
            subst h
            exact Or.inr (by simp)
        · exact Or.inr (List.mem_cons_of_mem y h)
      · rintro (h | h)
        · exact Or.inl (List.mem_append_left _ h)
        · rcases List.mem_cons.mp h with h | h
          · subst h
            exact Or.inl (List.mem_append_right _ (by simp))
          · exact Or.inr h

theorem mem_jsSetDedup {α : Type*} [DecidableEq α] (l : List α) (x : α) :
    x ∈ jsSetDedup l ↔ x ∈ l := by
  unfold jsSetDedup
  rw [jsSetDedup_fold_mem]
  simp

theorem jsSetDedup_fold_nodup {α : Type*} [DecidableEq α] (l acc : List α)
    (h : acc.Nodup) :
    (l.foldl (fun acc y => if y ∈ acc then acc else acc ++ [y]) acc).Nodup := by
  induction l generalizing acc with
  | nil => exact h
  | cons y t ih =>
    rw [List.foldl_cons]
    by_cases hy : y ∈ acc
    · rw [if_pos hy]
      exact ih _ h
    · rw [if_neg hy]
      refine ih _ (List.Nodup.append h (by simp) ?_)
      intro a ha hay
      simp only [List.mem_singleton] at hay
      subst hay
      exact hy ha

theorem nodup_jsSetDedup {α : Type*} [DecidableEq α] (l : List α) :
    (jsSetDedup l).Nodup :=
  jsSetDedup_fold_nodup l [] (by simp)

theorem length_jsSetDedup {α : Type*} [DecidableEq α] (l : List α) :
    (jsSetDedup l).length = l.toFinset.card := by
  have h1 : (jsSetDedup l).toFinset = l.toFinset := by
    ext a
    simp [List.mem_toFinset, mem_jsSetDedup]
  rw [← h1]
  exact (List.toFinset_card_of_nodup (nodup_jsSetDedup l)).symm

/-- Whether an external call's outcome is a success. -/
def isOkE {ε α : Type*} : Except ε α → Bool
  | .ok _ => true
  | .error _ => false

theorem isOkE_match_llm (r : Except String String) (h : isOkE r = true)
    (f : String → PipelineTrace) :
    isOkE (match r with
      | .error e => (.error e : Except String PipelineTrace)
      | .ok a => .ok (f a)) = true := by
  cases r with
  | error e => simp [isOkE] at h
  | ok a => rfl

theorem askQuestionRun_isOk (env : Env) (q : String) (emb : List ℚ)
    (hembed : env.embedResult = .ok emb)
    (hllm : ∀ b, isOkE (callLLMRun env b) = true) :
    isOkE (askQuestionRun env q) = true := by
  unfold askQuestionRun
  rw [hembed]
  dsimp only
  split
  · rfl
  · exact isOkE_match_llm _ (hllm _) _

/-- C3 (amended).  A failing vector or lexical search call is substituted by
an empty result for that branch and the pipeline continues to return an
AnswerResult (given the language-model call itself succeeds); a failing
embedding call, however, is not caught by `askQuestion` — it propagates and
aborts the request. -/
theorem askQuestion_error_handling (env : Env) (q : String) (emb : List ℚ)
    (hllm : ∀ b, isOkE (callLLMRun env b) = true) :
    (∀ verr : String, vectorSearch (.error verr) = [])
    ∧ (∀ kerr : String, keywordSearch (.error kerr) = [])
    ∧ (env.embedResult = .ok emb → isOkE (askQuestionRun env q) = true)
    ∧ (∀ eerr : String, env.embedResult = .error eerr →
        askQuestionRun env q = .error eerr) :=
  ⟨fun _ => rfl, fun _ => rfl,
   fun hembed => askQuestionRun_isOk env q emb hembed hllm,
   fun eerr hembed => by
     unfold askQuestionRun
     rw [hembed]⟩

/-- An environment whose embedding call fails while everything else is
healthy. -/
def envEmbedFail : Env :=
  { embedResult := .error "embedding failed", vectorRpc := .ok [], keywordRpc := .ok [],
    db := [], inThread := [], fetchOk := alwaysOk, useAnthropic := false,
    groqOutcome := .ok (some "ans"), claudeOutcome := .ok [], queryId := "q" }

/-- Counterexample to C3 as stated: when only the embedding call fails, the
pipeline does not substitute an empty result and continue — it aborts the
request with the embedding error instead of returning an AnswerResult. -/
theorem askQuestion_embed_abort_cex :
    askQuestionRun envEmbedFail "why was X rejected" = .error "embedding failed" := rfl

/-- An environment whose vector search RPC fails while everything else is
healthy. -/
def envVecFail : Env :=
  { embedResult := .ok [], vectorRpc := .error "vector down", keywordRpc := .ok [],
    db := [], inThread := [], fetchOk := alwaysOk, useAnthropic := false,
    groqOutcome := .ok (some "ans"), claudeOutcome := .ok [], queryId := "q" }

/-- Witness for the amended C3: with only the vector search failing, that
branch degrades to `[]` and the run still returns a result. -/
theorem askQuestion_error_handling_witness :
    isOkE (askQuestionRun envVecFail "why") = true
    ∧ vectorSearch envVecFail.vectorRpc = [] :=
  ⟨(askQuestion_error_handling envVecFail "why" [] (fun _ => rfl)).2.2.1 rfl, rfl⟩

/-- C4.  If both searches produce empty lists, the pipeline returns the fixed
"no relevant discussions found" answer with empty citations and an empty
thread-id list, and makes no language-model call (`llmCalls = 0`). -/
theorem askQuestion_empty_results (env : Env) (q : String) (emb : List ℚ)
    (hembed : env.embedResult = .ok emb)
    (hv : vectorSearch env.vectorRpc = [])
    (hk : keywordSearch env.keywordRpc = []) :
    askQuestionRun env q
      = .ok { answer := noResultsAnswer, sources := [], thread_ids := [],
              query_id := env.queryId, llmCalls := 0, modelUsed := none } := by
  unfold askQuestionRun
  rw [hembed]
  dsimp only
  rw [hv, hk]
  rfl

/-- An environment in which both searches succeed with zero matches. -/
def envEmptyBoth : Env :=
  { embedResult := .ok [], vectorRpc := .ok [], keywordRpc := .ok [],
    db := [], inThread := [], fetchOk := alwaysOk, useAnthropic := false,
    groqOutcome := .ok (some "ans"), claudeOutcome := .ok [], queryId := "q" }

/-- Witness for C4 at a concrete run with zero matches on both sides. -/
theorem askQuestion_empty_results_witness :
    envEmptyBoth.embedResult = .ok []
    ∧ askQuestionRun envEmptyBoth "why"
        = .ok { answer := noResultsAnswer, sources := [], thread_ids := [],
                query_id := "q", llmCalls := 0, modelUsed := none } :=
  ⟨rfl, askQuestion_empty_results envEmptyBoth "why" [] rfl rfl rfl⟩

/-- C8 (amended).  The larger model tier is selected if and only if the
number of distinct `thread_root_id` values among the merged (pre-expansion)
matches is at least 3 — counting a missing (null) thread-root identifier as
one distinct value, since the source builds a `Set` over the raw nullable
field. -/
theorem askQuestion_model_tier (env : Env) (q : String) (tr : PipelineTrace)
    (hgroq : env.useAnthropic = false)
    (hok : askQuestionRun env q = .ok tr)
    (hne : mergedOf env ≠ []) :
    (tr.modelUsed = some "llama-3.3-70b-versatile"
        ↔ 3 ≤ ((mergedOf env).map (fun e => e.thread_root_id)).toFinset.card)
    ∧ (tr.modelUsed = some "llama-3.1-8b-instant"
        ↔ ((mergedOf env).map (fun e => e.thread_root_id)).toFinset.card < 3) := by
  unfold askQuestionRun at hok
  cases hemb : env.embedResult with
  | error e =>
    rw [hemb] at hok
    exact Except.noConfusion hok
  | ok emb =>
    rw [hemb] at hok
    dsimp only at hok
    have hlen : ¬((mergeAndRerank (vectorSearch env.vectorRpc)
        (keywordSearch env.keywordRpc) 10).length = 0) := by
      intro hc
      exact hne (List.length_eq_zero.mp hc)
    rw [if_neg hlen] at hok
    cases hc : callLLMRun env
        (decide (3 ≤ (jsSetDedup ((mergeAndRerank (vectorSearch env.vectorRpc)
          (keywordSearch env.keywordRpc) 10).map (fun e => e.thread_root_id))).length)) with
    | error e =>
      rw [hc] at hok
      exact Except.noConfusion hok
    | ok a =>
      rw [hc] at hok
      dsimp only at hok
      have htr := Except.ok.inj hok
      have hmodel : tr.modelUsed
          = some (modelFor env
              (decide (3 ≤ (jsSetDedup ((mergeAndRerank (vectorSearch env.vectorRpc)
                (keywordSearch env.keywordRpc) 10).map
                  (fun e => e.thread_root_id))).length))) := by
        rw [← htr]
      have hcard : (jsSetDedup ((mergedOf env).map (fun e => e.thread_root_id))).length
          = ((mergedOf env).map (fun e => e.thread_root_id)).toFinset.card :=
        length_jsSetDedup _
      have hmerged : mergedOf env
          = mergeAndRerank (vectorSearch env.vectorRpc) (keywordSearch env.keywordRpc) 10 :=
        rfl
      rw [hmerged] at hcard
      rw [hmerged]
      by_cases h3 : 3 ≤ ((mergeAndRerank (vectorSearch env.vectorRpc)
          (keywordSearch env.keywordRpc) 10).map (fun e => e.thread_root_id)).toFinset.card
      · have hdec : decide (3 ≤ (jsSetDedup ((mergeAndRerank (vectorSearch env.vectorRpc)
            (keywordSearch env.keywordRpc) 10).map (fun e => e.thread_root_id))).length)
            = true := by
          rw [hcard]
          exact decide_eq_true h3
        rw [hdec] at hmodel
        have hmf : modelFor env true = "llama-3.3-70b-versatile" := by
          unfold modelFor
          rw [hgroq]
          rfl
        rw [hmf] at hmodel
        constructor
        · constructor
          · intro _
            exact h3
          · intro _
            exact hmodel
        · constructor
          · intro hcontra
            rw [hmodel] at hcontra
            have := Option.some.inj hcontra
            exact absurd this (by decide)
          · intro hcontra
            omega
      · have hdec : decide (3 ≤ (jsSetDedup ((mergeAndRerank (vectorSearch env.vectorRpc)
            (keywordSearch env.keywordRpc) 10).map (fun e => e.thread_root_id))).length)
            = false := by
          rw [hcard]
          exact decide_eq_false h3
        rw [hdec] at hmodel
        have hmf : modelFor env false = "llama-3.1-8b-instant" := by
          unfold modelFor
          rw [hgroq]
          rfl
        rw [hmf] at hmodel
        constructor
        · constructor
          · intro hcontra
            rw [hmodel] at hcontra
            have := Option.some.inj hcontra
            exact absurd this (by decide)
          · intro hcontra
            exact absurd hcontra h3
        · constructor
          · intro _
            omega
          · intro _
            exact hmodel

/-- A `match_emails` row with a chosen thread root and similarity. -/
def rowOf (i : String) (root : Option String) (sim : ℚ) : MatchRow :=
  { id := i, message_id := i, subject := "s", author_name := none, author_email := none,
    date := 0, body_new_content := none, source_url := none, thread_root_id := root,
    thread_depth := 0, similarity := sim }

/-- Three vector matches whose thread roots are `null`, `A` and `B`: only two
distinct thread-root identifiers, but three distinct `Set` elements. -/
def envC8 : Env :=
  { embedResult := .ok [],
    vectorRpc := .ok [rowOf "m1" none 0.9, rowOf "m2" (some "A") 0.8,
      rowOf "m3" (some "B") 0.7],
    keywordRpc := .ok [], db := [], inThread := [], fetchOk := alwaysOk,
    useAnthropic := false, groqOutcome := .ok (some "ans"), claudeOutcome := .ok [],
    queryId := "q" }

/-- Counterexample to C8 as stated: with merged matches whose thread roots are
`null`, `A`, `B`, the larger tier is selected although only 2 distinct
thread-root identifiers exist — the source's `Set` counts the null root as a
third element. -/
theorem askQuestion_model_tier_cex :
    (askQuestionRun envC8 "why").map (fun tr => tr.modelUsed)
        = .ok (some "llama-3.3-70b-versatile")
    ∧ (((mergedOf envC8).filterMap (fun e => e.thread_root_id)).dedup).length = 2 := by
  constructor
  · decide!
  · decide!

/-- A single-match environment for exercising the simple tier. -/
def envC8w : Env :=
  { embedResult := .ok [], vectorRpc := .ok [rowOf "m2" (some "A") 0.9],
    keywordRpc := .ok [], db := [], inThread := [], fetchOk := alwaysOk,
    useAnthropic := false, groqOutcome := .ok (some "ans"), claudeOutcome := .ok [],
    queryId := "q" }

/-- The trace of `envC8w`'s run. -/
def trC8w : PipelineTrace :=
  { answer := "ans",
    sources := [{ message_id := "m2", subject := "s", author_name := none,
                  date := 0, excerpt := "", source_url := none,
                  relevance_score := 27/50 }],
    thread_ids := ["A"], query_id := "q", llmCalls := 1,
    modelUsed := some "llama-3.1-8b-instant" }

/-- Witness for the amended C8 at a concrete single-thread run. -/
theorem askQuestion_model_tier_witness :
    (envC8w.useAnthropic = false
      ∧ askQuestionRun envC8w "why" = .ok trC8w
      ∧ mergedOf envC8w ≠ [])
    ∧ ((trC8w.modelUsed = some "llama-3.3-70b-versatile"
        ↔ 3 ≤ ((mergedOf envC8w).map (fun e => e.thread_root_id)).toFinset.card)
      ∧ (trC8w.modelUsed = some "llama-3.1-8b-instant"
        ↔ ((mergedOf envC8w).map (fun e => e.thread_root_id)).toFinset.card < 3)) :=
  ⟨⟨rfl, by decide!, by decide!⟩,
    askQuestion_model_tier envC8w "why" trC8w rfl (by decide!) (by decide!)⟩

/-- C9 (amended).  When the provider returns a null/absent message content (or
no text block at all), the synthesizer returns the literal non-empty
placeholder "No answer generated."; an empty-string text from the provider,
however, is passed through unchanged, so the answer can be empty in exactly
that case. -/
theorem synthesizer_placeholder (blocks : List ClaudeBlock)
    (hno : blocks.find? (fun b => b.btype = "text") = none) :
    callGroqText none = "No answer generated."
    ∧ callClaudeText blocks = "No answer generated."
    ∧ callGroqText none ≠ ""
    ∧ callGroqText (some "") = "" := by
  refine ⟨rfl, ?_, by decide, rfl⟩
  unfold callClaudeText
  rw [hno]

/-- An environment whose provider returns an empty string as its content. -/
def envC9 : Env :=
  { embedResult := .ok [], vectorRpc := .ok [rowOf "m2" (some "A") 0.9],
    keywordRpc := .ok [], db := [], inThread := [], fetchOk := alwaysOk,
    useAnthropic := false, groqOutcome := .ok (some ""), claudeOutcome := .ok [],
    queryId := "q" }

/-- Counterexample to C9 as stated: when the provider returns an empty string
(`""` is not nullish, so `?? "No answer generated."` does not fire), the
pipeline's answer field is the empty string. -/
theorem askQuestion_empty_answer_cex :
    (askQuestionRun envC9 "why").map (fun tr => tr.answer) = .ok "" := by
  decide!

/-- Witness for the amended C9 with a response carrying no text block. -/
theorem synthesizer_placeholder_witness :
    (([⟨"tool_use", "x"⟩] : List ClaudeBlock).find? (fun b => b.btype = "text") = none)
    ∧ (callGroqText none = "No answer generated."
      ∧ callClaudeText [⟨"tool_use", "x"⟩] = "No answer generated."
      ∧ callGroqText none ≠ ""
      ∧ callGroqText (some "") = "") :=
  ⟨by decide, synthesizer_placeholder [⟨"tool_use", "x"⟩] (by decide)⟩
